import Mathlib

/-!
Shallow embedding of the gpth-rs core (Google Photos Takeout organizer)
together with proofs about its specification.

Source files embedded (paths relative to the repository root):
* `crates/gpth-core/src/folder_classify.rs`
* `src/extras.rs`
* `crates/gpth-core/src/date/json.rs`
* `crates/gpth-core/src/date/exif.rs`
* `src/date/guess.rs`, `src/date/mod.rs`
* `crates/gpth-core/src/media.rs`
* `crates/gpth-core/src/dedup.rs`
* `crates/gpth-core/src/writer.rs`
* `crates/gpth-core/src/checkpoint.rs`
* `crates/gpth-core/src/lib.rs`

Rust strings are modelled by Lean `String` (a list of Unicode scalar values);
byte indices are modelled by char indices except where byte lengths matter,
in which case `Char.utf8Size` is used explicitly.  External crates
(`unicode_normalization`, `exif` container decoding, `mime_guess`, SHA-256)
are modelled as explicit function parameters, never stubbed silently.
-/

namespace Gpth

open scoped List

/-! ### Generic string helpers (models of Rust std primitives) -/

/-- Split a character list at every occurrence of `sep` (model of
`str::split(char)`): `""` yields one empty part, separators at the ends
yield empty parts. -/
def splitOnCharAux (sep : Char) : List Char → List (List Char)
  | [] => [[]]
  | c :: cs =>
      let rest := splitOnCharAux sep cs
      if c = sep then [] :: rest
      else
        match rest with
        | [] => [[c]]
        | h :: t => (c :: h) :: t

/-- `str::split('/')` etc., producing `String` parts. -/
def splitOnChar (sep : Char) (s : String) : List String :=
  (splitOnCharAux sep s.toList).map List.asString

/-- Model of `str::starts_with` (char-list based so that the kernel can
evaluate it). -/
def strStartsWith (s p : String) : Bool :=
  p.toList.isPrefixOf s.toList

/-- Model of `str::ends_with`. -/
def strEndsWith (s p : String) : Bool :=
  p.toList.isSuffixOf s.toList

/-- Model of Rust `str::strip_prefix`. -/
def stripStart (p s : String) : Option String :=
  if strStartsWith s p then some ((s.toList.drop p.length).asString) else none

/-- Model of Rust `str::strip_suffix`. -/
def stripEnd (p s : String) : Option String :=
  if strEndsWith s p then some ((s.toList.take (s.length - p.length)).asString)
  else none

/-- Model of Rust `str::contains(&str)`: substring containment.  For valid
UTF-8 the byte-level search of Rust agrees with this char-level search. -/
def containsSub (s sub : String) : Bool :=
  s.toList.tails.any (fun t => sub.toList.isPrefixOf t)

/-- Last path component of a `/`-separated path (model of
`Path::file_name().and_then(|n| n.to_str())`): the last nonempty component,
ignoring trailing separators and `.` components; `none` for paths with no
such component or ending in `..`. -/
def rustFileName (s : String) : Option String :=
  match (splitOnChar '/' s).filter (fun p => p ≠ "" && p ≠ ".") |>.getLast? with
  | none => none
  | some last => if last = ".." then none else some last

/-- Join path components with `/` (model of `String::intercalate` as used
to rebuild a parent path). -/
def joinSlash : List String → String
  | [] => ""
  | [x] => x
  | x :: y :: rest => x ++ "/" ++ joinSlash (y :: rest)

/-- Everything before the last `/` (model of
`Path::parent().and_then(|p| p.to_str()).unwrap_or("")` for the relative,
already-normalized archive paths this program manipulates). -/
def parentDir (s : String) : String :=
  joinSlash ((splitOnChar '/' s).dropLast)

/-- Model of Rust `Path::file_stem` applied to a plain file name:
the whole name when it contains no `.` (or only a leading one), otherwise
the part before the last `.`. -/
def stemOfName (name : String) : String :=
  let cs := name.toList
  match cs with
  | [] => ""
  | _first :: rest =>
      if (rest.filter (fun c => c = '.')).isEmpty then name
      else
        -- drop from the last '.' (a leading dot alone does not count)
        let idx := (List.range cs.length).filter
          (fun i => cs.get? i = some '.' && i ≠ 0) |>.getLast?
        match idx with
        | none => name
        | some i => (cs.take i).asString

/-- Model of `Path::file_stem().and_then(..)` on a path. -/
def rustFileStem (s : String) : Option String :=
  (rustFileName s).map stemOfName

/-- Model of `Path::extension()` on a plain path: the part after the final
`.` of the last component, when the stem is proper. -/
def rustExtension (s : String) : Option String :=
  match rustFileName s with
  | none => none
  | some name =>
      let stem := stemOfName name
      if stem = name then none
      else some ((name.toList.drop (stem.length + 1)).asString)

/-- Model of `Path::join` for string paths: an absolute component replaces,
otherwise the component is appended with a `/` separator. -/
def joinPath (dir name : String) : String :=
  if strStartsWith name "/" then name
  else if dir = "" then name
  else if strEndsWith dir "/" then dir ++ name
  else dir ++ "/" ++ name

/-- ASCII (plus Latin-1 letter range) lowercasing, the character-wise core
of Rust `str::to_lowercase` exercised by this program. -/
def lowerChar (c : Char) : Char :=
  if 'A' ≤ c ∧ c ≤ 'Z' then Char.ofNat (c.toNat + 32)
  else if 'À' ≤ c ∧ c ≤ 'Þ' ∧ c ≠ '×' then Char.ofNat (c.toNat + 32)
  else c

/-- Model of `str::to_lowercase`. -/
def toLower (s : String) : String := (s.toList.map lowerChar).asString

/-! ### Folder classifier — `crates/gpth-core/src/folder_classify.rs` -/

/-- `YEAR_FOLDER_PREFIXES`: localized markers before the year. -/
def yearFolderStarts : List String :=
  ["Photos from ", "Fotos von ", "Fotos aus ", "Photos de ", "Fotos de ",
   "Foto\x27s uit ", "Foto dal ", "Foto del ", "Zdjęcia z ", "Фото за ",
   "Фотографии за ", "Fotky z ", "Fotografii din ", "Foton från ",
   "Bilder fra ", "Billeder fra ", "Valokuvat ", "Fényképek - ",
   "Fotoğraflar "]

/-- `YEAR_FOLDER_SUFFIXES`: localized markers after the year. -/
def yearFolderEnds : List String :=
  [" 年の写真", "年のフォト", "년의 사진", "年的照片", "年的相片"]

/-- `YEAR_RE`: `^(20|19|18)\d{2}$` (ASCII digits; the Unicode `Nd` class of
the regex crate beyond ASCII is not exercised by Takeout folder names). -/
def yearReMatch (s : String) : Bool :=
  match s.toList with
  | [a, b, c, d] =>
      ((a = '2' ∧ b = '0') ∨ (a = '1' ∧ b = '9') ∨ (a = '1' ∧ b = '8'))
        ∧ c.isDigit ∧ d.isDigit
  | _ => false

/-- `is_year_folder`. -/
def is_year_folder (name : String) : Bool :=
  yearFolderStarts.any (fun p =>
    match stripStart p name with
    | some rest => yearReMatch rest
    | none => false)
  || yearFolderEnds.any (fun p =>
    match stripEnd p name with
    | some rest => yearReMatch rest
    | none => false)

/-- `is_in_year_folder`. -/
def is_in_year_folder (zipPath : String) : Bool :=
  (splitOnChar '/' zipPath).any is_year_folder

/-- The language-specific "Photos" tokens tested by `extract_album_name`. -/
def containsPhotosToken (p : String) : Bool :=
  containsSub p "hoto" || containsSub p "ото" || containsSub p "フォト"
    || containsSub p "照片" || containsSub p "사진"

/-- The per-component test of `extract_album_name`: the component must start
with `"Google"` and contain a localized "Photos" token, and the following
component must be nonempty and not a year folder. -/
def albumHit (p f : String) : Bool :=
  strStartsWith p "Google" && containsPhotosToken p
    && f ≠ "" && !is_year_folder f

/-- The scan loop of `extract_album_name`: for `i` ranging over positions
with at least two further components, return the component after the first
hit.  (The source's inner `i + 2 < parts.len()` test is always true inside
the loop range `0..parts.len()-2`.) -/
def extractAlbumScan : List String → Option String
  | p :: f :: x :: rest =>
      if albumHit p f then some f else extractAlbumScan (f :: x :: rest)
  | _ => none

/-- `extract_album_name`. -/
def extract_album_name (zipPath : String) : Option String :=
  extractAlbumScan (splitOnChar '/' zipPath)

/-! ### Extras matcher — `src/extras.rs`

The `unicode_normalization` crate's NFC normalization is an external
dependency; it is passed in as an explicit `nfc : String → String`
parameter.  Rust byte offsets into the lowercased string are modelled as
char offsets, which agree because `lowerChar` is character-wise. -/

/-- `EXTRA_FORMATS`: localized "edited" suffixes (lowercase). -/
def extraFormats : List String :=
  ["-edited", "-effects", "-smile", "-mix", "-edytowane", "-bearbeitet",
   "-bewerkt", "-編集済み", "-modificato", "-modifié", "-ha editado",
   "-editat"]

/-- `is_extra`: the lowercased, NFC-normalized stem ends with a listed
suffix. -/
def is_extra (nfc : String → String) (filenameWithoutExt : String) : Bool :=
  let name := nfc (toLower filenameWithoutExt)
  extraFormats.any (fun extra => strEndsWith name extra)

/-- Char position of the last occurrence of `needle` in `hay`
(model of `str::rfind(&str)`). -/
def lastOccur (needle hay : String) : Option Nat :=
  ((List.range (hay.length + 1)).filter
    (fun i => needle.toList.isPrefixOf (hay.toList.drop i))).getLast?

/-- Remove `len` chars starting at char position `pos`
(model of `String::replace_range(pos..pos+len, "")`). -/
def removeRange (s : String) (pos len : Nat) : String :=
  (s.toList.take pos ++ s.toList.drop (pos + len)).asString

/-- The suffix loop of `remove_extra`, over the normalized name. -/
def removeExtraGo (normalized : String) : List String → String
  | [] => normalized
  | extra :: rest =>
      match lastOccur extra (toLower normalized) with
      | some pos => removeRange normalized pos extra.length
      | none => removeExtraGo normalized rest

/-- `remove_extra`: strip the matched suffix occurrence from the normalized
name, case-insensitively. -/
def remove_extra (nfc : String → String) (filename : String) : String :=
  removeExtraGo (nfc filename) extraFormats

/-! ### JSON date index — `crates/gpth-core/src/date/json.rs` -/

/-- A naive local date-time (model of `chrono::NaiveDateTime` restricted to
second precision, as this program uses it). -/
structure DT where
  year : Nat
  month : Nat
  day : Nat
  hour : Nat
  minute : Nat
  second : Nat
deriving DecidableEq, Repr

/-- UTF-8 byte length of a string (model of Rust `str::len`). -/
def utf8Len (s : String) : Nat :=
  s.toList.foldl (fun n c => n + c.utf8Size) 0

/-- `shorten_name`: truncate so that `<name>.json` fits the 51-byte archive
file-name budget, on a UTF-8 char boundary.  Byte lengths are explicit. -/
def takeBytes : Nat → List Char → List Char
  | _, [] => []
  | budget, c :: cs =>
      if c.utf8Size ≤ budget then c :: takeBytes (budget - c.utf8Size) cs
      else []

/-- `shorten_name` itself (`max_len = 51 - ".json".len() = 46`). -/
def shorten_name (filename : String) : String :=
  if utf8Len filename + 5 > 51 then (takeBytes 46 filename.toList).asString
  else filename

/-- One attempt of `BRACKET_RE` (`\(\d+\)\.`) at the head of the list:
the matched chars and the remainder after the match. -/
def bracketMatchAt : List Char → Option (List Char × List Char)
  | '(' :: rest =>
      let digits := rest.takeWhile Char.isDigit
      if digits.isEmpty then none
      else
        match rest.drop digits.length with
        | ')' :: '.' :: tail =>
            some ('(' :: digits ++ [')', '.'], tail)
        | _ => none
  | _ => none

/-- All (non-overlapping, leftmost) matches of `BRACKET_RE`.  Matches of
this pattern can never overlap, so a char-by-char scan finds the same
matches as the regex crate's `find_iter`. -/
def bracketFindAll : List Char → List (List Char)
  | [] => []
  | c :: cs =>
      match bracketMatchAt (c :: cs) with
      | some (m, _) => m :: bracketFindAll cs
      | none => bracketFindAll cs

/-- `bracket_swap`: move the last `(N).` occurrence's bracket to the end of
the name (`foo(1).jpg` becomes `foo.jpg(1)`). -/
def bracket_swap (filename : String) : String :=
  match (bracketFindAll filename.toList).getLast? with
  | some m =>
      let bracket := (m.filter (fun c => c ≠ '.')).asString
      match lastOccur bracket filename with
      | some pos =>
          ((filename.toList.take pos
            ++ filename.toList.drop (pos + bracket.length))
            ++ bracket.toList).asString
      | none => filename
  | none => filename

/-- `no_extension`: `Path::file_stem` with the original name as fallback. -/
def no_extension (filename : String) : String :=
  (rustFileStem filename).getD filename

/-- The letter class `[A-Za-zÀ-ÖØ-öø-ÿ]` of `EXTRA_REGEX_RE`. -/
def isExtraLetter (c : Char) : Bool :=
  ('A' ≤ c ∧ c ≤ 'Z') ∨ ('a' ≤ c ∧ c ≤ 'z') ∨ ('À' ≤ c ∧ c ≤ 'Ö')
    ∨ ('Ø' ≤ c ∧ c ≤ 'ö') ∨ ('ø' ≤ c ∧ c ≤ 'ÿ')

/-- The regex-crate `\w` class, modelled on the fragment this program can
meet: ASCII alphanumerics, `_`, and the Latin-1 letters above. -/
def isWordChar (c : Char) : Bool :=
  c.isAlphanum || c = '_' || isExtraLetter c

/-- One attempt of `EXTRA_REGEX_RE`
(`(?P<extra>-[A-Za-zÀ-ÖØ-öø-ÿ]+(\(\d\))?)\.\w+$`) at the head: the length
of the `extra` capture group when the whole tail matches.  The pattern is
deterministic: the letter run is maximal, and no backtracking can succeed
where this fails. -/
def extraRegexMatchAt (cs : List Char) : Option Nat :=
  match cs with
  | '-' :: rest =>
      let letters := rest.takeWhile isExtraLetter
      if letters.isEmpty then none
      else
        let rem := rest.drop letters.length
        match rem with
        | '(' :: d :: ')' :: rem2 =>
            if d.isDigit then
              match rem2 with
              | '.' :: ws => if !ws.isEmpty && ws.all isWordChar
                             then some (1 + letters.length + 3) else none
              | _ => none
            else none
        | '.' :: ws => if !ws.isEmpty && ws.all isWordChar
                       then some (1 + letters.length) else none
        | _ => none
  | _ => none

/-- Leftmost match of `EXTRA_REGEX_RE`: `(start, extra-group length)`.
Because the pattern is anchored at the end of the string, `find_iter`
yields at most one match, so "exactly one match" means "a match exists". -/
def extraScan : List Char → Option (Nat × Nat)
  | [] => none
  | c :: cs =>
      match extraRegexMatchAt (c :: cs) with
      | some len => some (0, len)
      | none => (extraScan cs).map (fun pl => (pl.1 + 1, pl.2))

/-- `remove_extra_regex`: delete the `extra` capture group of the unique
match, if any. -/
def remove_extra_regex (filename : String) : String :=
  match extraScan filename.toList with
  | some (pos, len) => removeRange filename pos len
  | none => filename

/-- `remove_digit`: `DIGIT_RE.replace_all(filename, ".")`, replacing every
`(N).` with a single digit by `.`; matches cannot overlap. -/
def removeDigitGo : List Char → List Char
  | '(' :: d :: ')' :: '.' :: rest =>
      if d.isDigit then '.' :: removeDigitGo rest
      else '(' :: removeDigitGo (d :: ')' :: '.' :: rest)
  | c :: rest => c :: removeDigitGo rest
  | [] => []

/-- `remove_digit` on strings. -/
def remove_digit (filename : String) : String :=
  (removeDigitGo filename.toList).asString

/-- `make_path`: join the parent directory with a transformed name. -/
def mkPath (dir name : String) : String :=
  if dir = "" then name else dir ++ "/" ++ name

/-- The five transformations always probed by `find_json_date`. -/
def baseMethods (nfc : String → String) : List (String → String) :=
  [fun s => s, shorten_name, bracket_swap, remove_extra nfc, no_extension]

/-- The two extra transformations (`tryhard`). -/
def tryhardMethods : List (String → String) :=
  [remove_extra_regex, remove_digit]

/-- The probe loop of `find_json_date`: first transformation whose joined
path is a key of the index. -/
def probeMethods (dir filename : String) (jsonDates : List (String × DT)) :
    List (String → String) → Option DT
  | [] => none
  | f :: fs =>
      match List.lookup (mkPath dir (f filename)) jsonDates with
      | some d => some d
      | none => probeMethods dir filename jsonDates fs

/-- `find_json_date` (the four-argument form of
`crates/gpth-core/src/date/json.rs`): try the transformation methods in
order; when `tryhard` is off, the two extra transformations run in a
trailing fallback loop instead. -/
def find_json_date (nfc : String → String) (zipPath filename : String)
    (jsonDates : List (String × DT)) (tryhard : Bool) : Option DT :=
  let dir := parentDir zipPath
  let methods := baseMethods nfc ++ (if tryhard then tryhardMethods else [])
  match probeMethods dir filename jsonDates methods with
  | some d => some d
  | none =>
      if !tryhard then probeMethods dir filename jsonDates tryhardMethods
      else none

/-- The seven name-transformation variants of the JSON date index (the five
base methods and the two tryhard ones). -/
def sevenVariants (nfc : String → String) : List (String → String) :=
  baseMethods nfc ++ tryhardMethods

/-- The media base name of a sidecar path: basename with `.json`
stripped. -/
def jsonBaseName (jsonPath : String) : Option String :=
  (rustFileName jsonPath).bind (stripEnd ".json")

/-- Insert a key/value pair unless the key is already bound
(first-writer-wins). -/
def insertIfAbsent (m : List (String × DT)) (kv : String × DT) :
    List (String × DT) :=
  if (List.lookup kv.1 m).isSome then m else kv :: m

/-- Modelled from the spec: `register_json_date` (called from
`crates/gpth-core/src/zip_scan.rs` line 97 but absent from the staged
sources) registers a parsed sidecar's date under all seven
name-transformation variants of its media path, joined with the sidecar's
directory, first-writer-wins on collision. -/
def register_json_date (nfc : String → String) (jsonPath : String) (dt : DT)
    (m : List (String × DT)) : List (String × DT) :=
  match jsonBaseName jsonPath with
  | none => m
  | some mediaName =>
      let dir := parentDir jsonPath
      ((sevenVariants nfc).map (fun f => (mkPath dir (f mediaName), dt))).foldl
        insertIfAbsent m

/-- Modelled from the spec: the two-argument `find_json_date` used by
`crates/gpth-core/src/lib.rs` (absent from the staged sources) probes the
pre-expanded index with the archive path exactly, a single probe. -/
def find_json_date_indexed (zipPath : String) (m : List (String × DT)) :
    Option DT :=
  List.lookup zipPath m

/-! ### Chrono-style parsing — model of the `NaiveDateTime::parse_from_str`
fragment this program uses.  A format is a list of items; numeric fields
parse 1 to `maxW` ASCII digits greedily, a literal matches one char, a
space matches any run of whitespace (chrono's `Item::Space`).  The parse
must consume the whole input, and the assembled values must form a valid
calendar date and time. -/

/-- A chrono format item. -/
inductive FmtItem where
  | fld (maxW : Nat)
  | lit (c : Char)
  | ws
deriving DecidableEq, Repr

/-- Collect up to `max` leading ASCII digits. -/
def takeDigits : Nat → List Char → List Char × List Char
  | 0, cs => ([], cs)
  | _ + 1, [] => ([], [])
  | m + 1, c :: cs =>
      if c.isDigit then
        let p := takeDigits m cs
        (c :: p.1, p.2)
      else ([], c :: cs)

/-- Value of a digit string. -/
def digitsVal (ds : List Char) : Nat :=
  ds.foldl (fun n c => n * 10 + (c.toNat - 48)) 0

/-- Parse a numeric field: at least one digit, at most `maxW`. -/
def parseNum (maxW : Nat) (cs : List Char) : Option (Nat × List Char) :=
  let p := takeDigits maxW cs
  if p.1.isEmpty then none else some (digitsVal p.1, p.2)

/-- Skip whitespace (chrono `Item::Space`: zero or more). -/
def skipWs (cs : List Char) : List Char :=
  cs.dropWhile (fun c => c.isWhitespace)

/-- Run a format over the input, returning the parsed numbers in order and
the unconsumed remainder. -/
def parseFields : List FmtItem → List Char → Option (List Nat × List Char)
  | [], cs => some ([], cs)
  | .fld w :: rest, cs =>
      match parseNum w cs with
      | some (n, cs') =>
          match parseFields rest cs' with
          | some (ns, cs'') => some (n :: ns, cs'')
          | none => none
      | none => none
  | .lit c :: rest, cs =>
      match cs with
      | c' :: cs' => if c' = c then parseFields rest cs' else none
      | [] => none
  | .ws :: rest, cs => parseFields rest (skipWs cs)

/-- Gregorian leap year. -/
def isLeapYear (y : Nat) : Bool :=
  y % 4 = 0 ∧ (y % 100 ≠ 0 ∨ y % 400 = 0)

/-- Days in a month. -/
def daysInMonth (y m : Nat) : Nat :=
  if m = 2 then (if isLeapYear y then 29 else 28)
  else if m = 4 ∨ m = 6 ∨ m = 9 ∨ m = 11 then 30
  else 31

/-- Calendar validity of a date. -/
def validDate (y m d : Nat) : Bool :=
  1 ≤ m ∧ m ≤ 12 ∧ 1 ≤ d ∧ d ≤ daysInMonth y m

/-- Assemble a date-time, checking calendar and clock validity (the
`Parsed::to_naive…` step of chrono). -/
def mkDateTime (y m d h mi s : Nat) : Option DT :=
  if validDate y m d ∧ h < 24 ∧ mi < 60 ∧ s < 60 then some ⟨y, m, d, h, mi, s⟩
  else none

/-- `NaiveDateTime::parse_from_str` for a six-field format: whole input
consumed, fields in `Y m d H M S` order. -/
def parseDateTime (items : List FmtItem) (cs : List Char) : Option DT :=
  match parseFields items cs with
  | some ([y, m, d, h, mi, s], []) => mkDateTime y m d h mi s
  | _ => none

/-- `NaiveDate::parse_from_str` followed by `and_hms_opt(0, 0, 0)`. -/
def parseDateOnly (items : List FmtItem) (cs : List Char) : Option DT :=
  match parseFields items cs with
  | some ([y, m, d], []) => mkDateTime y m d 0 0 0
  | _ => none

/-! ### EXIF date extractor — `crates/gpth-core/src/date/exif.rs` -/

/-- `"%Y:%m:%d %H:%M:%S"`. -/
def fmtExifDateTime : List FmtItem :=
  [.fld 4, .lit ':', .fld 2, .lit ':', .fld 2, .ws,
   .fld 2, .lit ':', .fld 2, .lit ':', .fld 2]

/-- `"%Y:%m:%d"`. -/
def fmtExifDate : List FmtItem :=
  [.fld 4, .lit ':', .fld 2, .lit ':', .fld 2]

/-- `str::replace(char, str)` for a one-char replacement. -/
def replaceChar (a b : Char) (s : String) : String :=
  (s.toList.map (fun c => if c = a then b else c)).asString

/-- The separator normalization of `parse_exif_datetime`:
`- / \ .` each replaced by `:`. -/
def cleanSeps (s : String) : String :=
  replaceChar '.' ':'
    (replaceChar '\\' ':' (replaceChar '/' ':' (replaceChar '-' ':' s)))

/-- `parse_exif_datetime`: normalize separators, try the full format, then
the date before the first space (`cleaned.split(' ').next()`) at
midnight. -/
def parse_exif_datetime (s : String) : Option DT :=
  match parseDateTime fmtExifDateTime (cleanSeps s).toList with
  | some dt => some dt
  | none =>
      parseDateOnly fmtExifDate ((splitOnChar ' ' (cleanSeps s)).headD "").toList

/-- The three EXIF tags consulted, in priority order. -/
inductive ExifTag where
  | dateTimeOriginal
  | dateTimeDigitized
  | dateTime
deriving DecidableEq, Repr

/-- Tag priority order of `extract_exif_date`. -/
def exifTagOrder : List ExifTag :=
  [.dateTimeOriginal, .dateTimeDigitized, .dateTime]

/-- The loop of `extract_exif_date`: the `exif` crate's container decode and
field display are external; they are abstracted as a
`getField : ExifTag → Option String` oracle (a failed container read is the
everywhere-`none` oracle). -/
def exifTagLoop (getField : ExifTag → Option String) :
    List ExifTag → Option DT
  | [] => none
  | t :: ts =>
      match getField t with
      | some v =>
          match parse_exif_datetime v with
          | some dt => some dt
          | none => exifTagLoop getField ts
      | none => exifTagLoop getField ts

/-- `extract_exif_date` over the field oracle. -/
def extract_exif_date (getField : ExifTag → Option String) : Option DT :=
  exifTagLoop getField exifTagOrder

/-! ### Filename date guesser — `src/date/guess.rs` -/

/-- A token of the guess regexes: all their pieces are fixed-width. -/
inductive GTok where
  | year2          -- `(20|19|18)\d{2}`
  | mon2           -- `(01|02|…|12)`
  | dayc           -- `[0-3]`
  | dig (n : Nat)  -- `\d{n}`
  | sep (c : Char)
deriving DecidableEq, Repr

/-- Match one token at the head: consumed chars and remainder. -/
def gtokMatch : GTok → List Char → Option (List Char × List Char)
  | .year2, a :: b :: c :: d :: rest =>
      if ((a = '2' ∧ b = '0') ∨ (a = '1' ∧ b = '9') ∨ (a = '1' ∧ b = '8'))
          ∧ c.isDigit ∧ d.isDigit
      then some ([a, b, c, d], rest) else none
  | .mon2, a :: b :: rest =>
      if (a = '0' ∧ '1' ≤ b ∧ b ≤ '9') ∨ (a = '1' ∧ '0' ≤ b ∧ b ≤ '2')
      then some ([a, b], rest) else none
  | .dayc, a :: rest =>
      if '0' ≤ a ∧ a ≤ '3' then some ([a], rest) else none
  | .dig n, cs =>
      let p := cs.splitAt n
      if p.1.length = n ∧ p.1.all Char.isDigit then some (p.1, p.2) else none
  | .sep c, a :: rest => if a = c then some ([a], rest) else none
  | _, _ => none

/-- Match a token sequence at the head. -/
def gtoksMatch : List GTok → List Char → Option (List Char × List Char)
  | [], cs => some ([], cs)
  | t :: ts, cs =>
      match gtokMatch t cs with
      | some (m, rest) =>
          match gtoksMatch ts rest with
          | some (m', rest') => some (m ++ m', rest')
          | none => none
      | none => none

/-- Leftmost match of a token sequence anywhere in the input (the regex
crate's `captures`; the `date` group spans the whole pattern). -/
def findMatch (toks : List GTok) : List Char → Option (List Char)
  | [] => (gtoksMatch toks []).map Prod.fst
  | c :: cs =>
      match gtoksMatch toks (c :: cs) with
      | some (m, _) => some m
      | none => findMatch toks cs

/-- One guess pattern: its regex tokens, its chrono format, and whether it
is the compact `"%Y%m%d%H%M%S"` one (whose match is truncated to 14
chars). -/
structure DatePattern where
  toks : List GTok
  fmt : List FmtItem
  isCompact : Bool

/-- The six patterns of `PATTERNS`, in order. -/
def guessPatterns : List DatePattern :=
  [ ⟨[.year2, .mon2, .dayc, .dig 1, .sep '-', .dig 6],
      [.fld 4, .fld 2, .fld 2, .lit '-', .fld 2, .fld 2, .fld 2], false⟩,
    ⟨[.year2, .mon2, .dayc, .dig 1, .sep '_', .dig 6],
      [.fld 4, .fld 2, .fld 2, .lit '_', .fld 2, .fld 2, .fld 2], false⟩,
    ⟨[.year2, .sep '-', .mon2, .sep '-', .dayc, .dig 1, .sep '-', .dig 2,
        .sep '-', .dig 2, .sep '-', .dig 2],
      [.fld 4, .lit '-', .fld 2, .lit '-', .fld 2, .lit '-', .fld 2,
        .lit '-', .fld 2, .lit '-', .fld 2], false⟩,
    ⟨[.year2, .sep '-', .mon2, .sep '-', .dayc, .dig 1, .sep '-', .dig 6],
      [.fld 4, .lit '-', .fld 2, .lit '-', .fld 2, .lit '-', .fld 2,
        .fld 2, .fld 2], false⟩,
    ⟨[.year2, .mon2, .dayc, .dig 7],
      [.fld 4, .fld 2, .fld 2, .fld 2, .fld 2, .fld 2], true⟩,
    ⟨[.year2, .sep '_', .mon2, .sep '_', .dayc, .dig 1, .sep '_', .dig 2,
        .sep '_', .dig 2, .sep '_', .dig 2],
      [.fld 4, .lit '_', .fld 2, .lit '_', .fld 2, .lit '_', .fld 2,
        .lit '_', .fld 2, .lit '_', .fld 2], false⟩ ]

/-- The pattern loop of `guess_date_from_filename`. -/
def guessLoop (basename : List Char) : List DatePattern → Option DT
  | [] => none
  | pat :: rest =>
      match findMatch pat.toks basename with
      | some m =>
          let s := if pat.isCompact then m.take 14 else m
          match parseDateTime pat.fmt s with
          | some dt => some dt
          | none => guessLoop basename rest
      | none => guessLoop basename rest

/-- `guess_date_from_filename`. -/
def guess_date_from_filename (filename : String) : Option DT :=
  let basename := (rustFileName filename).getD filename
  guessLoop basename.toList guessPatterns

/-! ### Theorems about the EXIF datetime parser (C9) -/

/-- The digit rendering used to state round-trip facts about the parser. -/
def digitChar : Nat → Char
  | 0 => '0' | 1 => '1' | 2 => '2' | 3 => '3' | 4 => '4'
  | 5 => '5' | 6 => '6' | 7 => '7' | 8 => '8' | _ => '9'

/-- Two-digit zero-padded rendering (chrono `%m`, `%d`, `%H`, `%M`, `%S`). -/
def pad2 (n : Nat) : List Char := [digitChar (n / 10 % 10), digitChar (n % 10)]

/-- Four-digit zero-padded rendering (chrono `%Y` for 0–9999). -/
def pad4 (n : Nat) : List Char :=
  [digitChar (n / 1000 % 10), digitChar (n / 100 % 10),
   digitChar (n / 10 % 10), digitChar (n % 10)]

/-- A full EXIF value `YYYY:MM:DD HH:MM:SS`. -/
def renderExifDT (y m d h mi s : Nat) : String :=
  (pad4 y ++ ':' :: (pad2 m ++ ':' :: (pad2 d ++ ' ' ::
    (pad2 h ++ ':' :: (pad2 mi ++ ':' :: pad2 s))))).asString

/-- A time-less EXIF value `YYYY:MM:DD`. -/
def renderExifDate (y m d : Nat) : String :=
  (pad4 y ++ ':' :: (pad2 m ++ ':' :: pad2 d)).asString

/-- The single character map equivalent to the four replacements. -/
def cleanChar (c : Char) : Char :=
  if c = '-' ∨ c = '/' ∨ c = '\\' ∨ c = '.' then ':' else c

/-! ### Date coordinator — `src/date/mod.rs` -/

/-- `DateResult`. -/
structure DateResult where
  date : DT
  accuracy : Nat
deriving DecidableEq, Repr

/-- `extract_date`: JSON (accuracy 0), then EXIF (1), then filename guess
(2) when allowed.  The media bytes argument is the EXIF field oracle. -/
def extract_date (jsonDate : Option DT)
    (mediaBytes : Option (ExifTag → Option String)) (filename : String)
    (allowGuess : Bool) : Option DateResult :=
  match jsonDate with
  | some date => some ⟨date, 0⟩
  | none =>
      match mediaBytes.bind extract_exif_date with
      | some date => some ⟨date, 1⟩
      | none =>
          if allowGuess then
            (guess_date_from_filename filename).map (fun d => ⟨d, 2⟩)
          else none

/-! ### Media record — `crates/gpth-core/src/media.rs` -/

/-- The `Media` record.  `u8` accuracy and `u64` sizes are modelled as
`Nat` (no arithmetic ever overflows them in this program: accuracy is one
of 0, 1, 2, 255). -/
structure Media where
  zip_path : String
  zip_index : Nat
  entry_index : Nat
  filename : String
  size : Nat
  hash : Option String
  date : Option DT
  date_accuracy : Nat
  albums : List String
deriving DecidableEq, Repr

instance : Inhabited Media := ⟨⟨"", 0, 0, "", 0, none, none, 255, []⟩⟩

/-- `Media::new`: no hash, no date, accuracy `u8::MAX = 255`, no albums. -/
def Media.new (zip_path : String) (zip_index entry_index : Nat)
    (filename : String) (size : Nat) : Media :=
  ⟨zip_path, zip_index, entry_index, filename, size, none, none, 255, []⟩

/-! ### Deduplicator — `crates/gpth-core/src/dedup.rs`, duplicate-selection
phase (lines 139–171).  The hashing phase reads archive bytes; its result
is the `hash` fields of the input records, so the selection phase is
embedded over an arbitrary input list. -/

/-- The sort key of the duplicate selection:
`(date_accuracy, filename.len())`, with byte length as in Rust. -/
def accLen (m : Media) : Nat × Nat := (m.date_accuracy, utf8Len m.filename)

/-- Lexicographic order on sort keys (what
`cmp(date_accuracy).then_with(cmp(filename.len()))" ≤ Equal` means). -/
def tupleLE (a b : Nat × Nat) : Prop :=
  a.1 < b.1 ∨ (a.1 = b.1 ∧ a.2 ≤ b.2)

instance (a b : Nat × Nat) : Decidable (tupleLE a b) := by
  unfold tupleLE; infer_instance

/-- The comparator of `sorted.sort_by(..)`, on indices into the media
list. -/
def dedupLE (media : List Media) (a b : Nat) : Bool :=
  decide (tupleLE (accLen (media.getD a default)) (accLen (media.getD b default)))

/-- The index group of a `(size, hash)` key, in insertion order (the
`hash_groups` entry of the key; ascending indices as pushed). -/
def groupOf (media : List Media) (sz : Nat) (h : String) : List Nat :=
  (List.range media.length).filter
    (fun i => (media.getD i default).size = sz
      ∧ (media.getD i default).hash = some h)

/-- Whether index `i` is marked for removal: in a group of size > 1, every
index but the head of the `(date_accuracy, filename.len())`-sorted group.
The source sorts and deduplicates `remove_indices` before removal, which
makes the removal set independent of `HashMap` iteration order; the set is
therefore defined directly. -/
def removedIdx (media : List Media) (i : Nat) : Bool :=
  match (media.getD i default).hash with
  | none => false
  | some h =>
      let g := groupOf media (media.getD i default).size h
      if g.length ≤ 1 then false
      else i ∈ (g.mergeSort (dedupLE media)).tail

/-- `remove_indices` after `sort_unstable` and `dedup`: ascending and
duplicate-free. -/
def removeIndices (media : List Media) : List Nat :=
  (List.range media.length).filter (fun i => removedIdx media i)

/-- `Vec::swap_remove(i)`: replace index `i` with the last element and pop. -/
def swapRemove (l : List Media) (i : Nat) : List Media :=
  match l.getLast? with
  | none => l
  | some last => (l.set i last).dropLast

/-- The duplicate-selection phase of `deduplicate`: remove the marked
indices in descending order with `swap_remove`. -/
def deduplicate (media : List Media) : List Media :=
  (removeIndices media).reverse.foldl swapRemove media

/-! ### Pipeline date stages — `crates/gpth-core/src/lib.rs`
(`process_with_control`).  Archive I/O (entry bytes for EXIF) and the
`mime_guess` crate are oracles; worker chunking preserves per-index
assignment, so the EXIF pass is its per-target assignment loop. -/

/-- The JSON + filename-guess pass (lib.rs lines 208–215): for every
record, probe the pre-expanded JSON index by archive path and combine with
the guesser through `extract_date`; on success set `date` and
`date_accuracy` together. -/
def jsonGuessPass (jsonDates : List (String × DT)) (allowGuess : Bool)
    (media : List Media) : List Media :=
  media.map (fun m =>
    match extract_date (find_json_date_indexed m.zip_path jsonDates) none
        m.filename allowGuess with
    | some r => { m with date := some r.date, date_accuracy := r.accuracy }
    | none => m)

/-- The EXIF target filter (lib.rs lines 219–230): no date yet, at most
32 MiB, and an `image/*` mime type (`mime_guess` modelled as the
`isImage` oracle). -/
def isExifTarget (isImage : String → Bool) (m : Media) : Bool :=
  m.date.isNone && m.size ≤ 32 * 1024 * 1024 && isImage m.filename

/-- Install one `(index, result)` pair (lib.rs lines 294–299). -/
def applyDateResult (l : List Media) (p : Nat × Option DateResult) :
    List Media :=
  match p.2 with
  | some r =>
      let base := l.getD p.1 default
      l.set p.1 { base with date := some r.date, date_accuracy := r.accuracy }
  | none => l

/-- The EXIF pass: collect targets, run `extract_date` on each target's
entry bytes (the `entryBytes` oracle; `none` models an open/read failure),
then install the results. -/
def exifPass (isImage : String → Bool)
    (entryBytes : Nat → Option (ExifTag → Option String)) (allowGuess : Bool)
    (media : List Media) : List Media :=
  let targets := (List.range media.length).filter
    (fun i => isExifTarget isImage (media.getD i default))
  let results := targets.map (fun i =>
    (i, (entryBytes i).bind (fun oracle =>
      extract_date none (some oracle) (media.getD i default).filename
        allowGuess)))
  results.foldl applyDateResult media

/-- `AlbumEntry` (zip_scan.rs). -/
structure AlbumEntry where
  filename : String
  zip_path : String
  zip_index : Nat
  entry_index : Nat
  size : Nat
deriving DecidableEq, Repr

/-- One album-merge step (lib.rs lines 322–344): match by
`(filename, size)`; on a hit add the album name once (set semantics,
insertion order kept), otherwise append a fresh album-only record and index
it. -/
def albumMergeStep (st : List Media × List ((String × Nat) × Nat))
    (p : String × AlbumEntry) : List Media × List ((String × Nat) × Nat) :=
  match List.lookup (p.2.filename, p.2.size) st.2 with
  | some i =>
      let m := st.1.getD i default
      if p.1 ∈ m.albums then st
      else (st.1.set i { m with albums := m.albums ++ [p.1] }, st.2)
  | none =>
      let m0 := Media.new p.2.zip_path p.2.zip_index p.2.entry_index
        p.2.filename p.2.size
      (st.1 ++ [{ m0 with albums := [p.1] }],
        ((p.2.filename, p.2.size), st.1.length) :: st.2)

/-- The album-merge stage: build the `(filename, size) → index` map (later
records shadow earlier ones, as repeated `HashMap::insert` does), then fold
the album entries. -/
def albumMerge (albumEntries : List (String × List AlbumEntry))
    (media : List Media) : List Media :=
  let init : List ((String × Nat) × Nat) :=
    (media.enum.map (fun q => ((q.2.filename, q.2.size), q.1))).reverse
  ((albumEntries.flatMap (fun q => q.2.map (fun ae => (q.1, ae)))).foldl
    albumMergeStep (media, init)).1

/-- The album-only JSON/guess pass (lib.rs lines 350–356): the records at
positions `start ..` only. -/
def albumOnlyJsonPass (jsonDates : List (String × DT)) (allowGuess : Bool)
    (start : Nat) (media : List Media) : List Media :=
  media.take start ++ jsonGuessPass jsonDates allowGuess (media.drop start)

/-- The album-only EXIF pass (lib.rs lines 359–455): the records at
positions `start ..` only; the oracle is indexed relative to `start`. -/
def albumOnlyExifPass (isImage : String → Bool)
    (entryBytes : Nat → Option (ExifTag → Option String)) (allowGuess : Bool)
    (start : Nat) (media : List Media) : List Media :=
  media.take start ++ exifPass isImage entryBytes allowGuess (media.drop start)

/-- The data-model invariant of C8. -/
def dateInv (m : Media) : Prop :=
  m.date_accuracy < 255 ↔ m.date.isSome = true

instance (m : Media) : Decidable (dateInv m) := by
  unfold dateInv; infer_instance

/-! ### Checkpointing — `crates/gpth-core/src/checkpoint.rs`.
File I/O (`fs::metadata` mtimes, SHA-256) appears as explicit function
parameters; the file system is an association list from paths to stored
checkpoints (serde round-trips faithfully, so the stored value is the
checkpoint itself). -/

def CHECKPOINT_VERSION : Nat := 1

def CHECKPOINT_FILENAME : String := ".gpth-progress.json"

/-- The temp-file name used by `Checkpoint::save` (checkpoint.rs:77). -/
def checkpointTempName : String := ".gpth-progress.tmp"

structure WrittenFile where
  zip_path : String
  output_path : String
  size : Nat
deriving Repr, DecidableEq

structure ProcessOptions where
  zip_files : List String
  output : String
  divide_to_dates : Bool
  skip_extras : Bool
  no_guess : Bool
  albums : Bool
  album_dest : String
  album_link : Bool
  album_json : Option String
deriving Repr

structure Checkpoint where
  version : Nat
  timestamp : Int
  options_hash : String
  zip_files : List String
  zip_mtimes : List Int
  written_files : List WrittenFile
  last_stage : String
  completed : Bool
deriving Repr, DecidableEq

/-- The byte stream fed to the SHA-256 hasher by `compute_options_hash`
(checkpoint.rs:161-172): the seven layout-affecting options in `update`
order. -/
def optionsHashInput (o : ProcessOptions) : String :=
  (if o.divide_to_dates then "1" else "0")
  ++ (if o.skip_extras then "1" else "0")
  ++ (if o.no_guess then "1" else "0")
  ++ (if o.albums then "1" else "0")
  ++ o.album_dest
  ++ (if o.album_link then "1" else "0")
  ++ o.output

/-- `compute_options_hash`, with SHA-256/hex as the oracle `H`. -/
def compute_options_hash (H : String → String) (o : ProcessOptions) : String :=
  H (optionsHashInput o)

/-- `get_zip_mtimes` on the success path, with `fs::metadata` modelled by
the oracle `mtime`. -/
def get_zip_mtimes (mtime : String → Int) (zip_files : List String) :
    List Int :=
  zip_files.map mtime

/-- `Checkpoint::is_compatible` (checkpoint.rs:98-127), success path. -/
def Checkpoint.is_compatible (H : String → String) (mtime : String → Int)
    (cp : Checkpoint) (o : ProcessOptions) : Bool :=
  if cp.version ≠ CHECKPOINT_VERSION then false
  else if cp.completed then false
  else if cp.options_hash ≠ compute_options_hash H o then false
  else if cp.zip_files ≠ o.zip_files then false
  else if cp.zip_mtimes ≠ get_zip_mtimes mtime o.zip_files then false
  else true

/-- `File::create` + write: the path now maps to `cp`, shadowing any
previous content. -/
def fsWrite (fs : List (String × Checkpoint)) (p : String) (cp : Checkpoint) :
    List (String × Checkpoint) :=
  (p, cp) :: fs.filter (fun q => !(q.1 == p))

/-- `fs::rename(src, dst)`: the content at `src` moves to `dst`. -/
def fsRename (fs : List (String × Checkpoint)) (src dst : String) :
    List (String × Checkpoint) :=
  match List.lookup src fs with
  | some v => fsWrite (fs.filter (fun q => !(q.1 == src))) dst v
  | none => fs

/-- `output_dir.join(CHECKPOINT_FILENAME)` (checkpoint.rs:62,76). -/
def checkpointPath (out : String) : String := joinPath out CHECKPOINT_FILENAME

/-- `Checkpoint::save` (checkpoint.rs:75-86): write the temp file, then
rename it over the checkpoint path. -/
def Checkpoint.save (cp : Checkpoint) (out : String)
    (fs : List (String × Checkpoint)) : List (String × Checkpoint) :=
  fsRename (fsWrite fs (joinPath out checkpointTempName) cp)
    (joinPath out checkpointTempName) (checkpointPath out)

/-- `Checkpoint::load` (checkpoint.rs:61-72): read the checkpoint path,
`none` when the file is absent. -/
def Checkpoint.load (out : String) (fs : List (String × Checkpoint)) :
    Option Checkpoint :=
  List.lookup (checkpointPath out) fs

/-! ### Writer, destination-assignment phase —
`crates/gpth-core/src/writer.rs` (lines 92-165). -/

/-- Little-endian decimal digits of `n` (fuel-structured; `fuel > n`
suffices). -/
def ndGo : Nat → Nat → List Char
  | 0, _ => []
  | fuel+1, n =>
      if n < 10 then [digitChar n]
      else digitChar (n % 10) :: ndGo fuel (n / 10)

/-- Decimal rendering of a natural number (Rust `format!("{}", n)`). -/
def natToString (n : Nat) : String := ((ndGo (n+1) n).reverse).asString

/-- Value of a little-endian digit list (used to invert `ndGo`). -/
def revVal : List Char → Nat
  | [] => 0
  | c :: rest => revVal rest * 10 + (c.toNat - 48)

/-- The collision candidate `sub_dir.join(format!("{stem}({n})[.{ext}]"))`
(writer.rs:149-154). -/
def candName (subDir stem ext : String) (n : Nat) : String :=
  if ext = "" then joinPath subDir (stem ++ "(" ++ natToString n ++ ")")
  else joinPath subDir (stem ++ "(" ++ natToString n ++ ")." ++ ext)

/-- The collision loop (writer.rs:147-160): increment the counter from `c`
and return the first candidate absent from both the used set and the
pre-scanned existing-files map.  The Rust loop is unbounded; here it
carries fuel, and `findFree_succeeds` shows the fuel used by `assignStep`
always suffices. -/
def findFree (used : List String) (existing : List (String × Nat))
    (subDir stem ext : String) : Nat → Nat → Option (Nat × String)
  | 0, _ => none
  | fuel+1, c =>
      let cand := candName subDir stem ext (c+1)
      if cand ∈ used ∨ (List.lookup cand existing).isSome then
        findFree used existing subDir stem ext fuel (c+1)
      else some (c+1, cand)

/-- Mutable state of the assignment loop: `name_counters`, `used_paths`
and the `assignments` vector. -/
structure AssignState where
  counters : List (String × Nat)
  used : List String
  assignments : List String
deriving Repr

/-- `HashMap` insert for the per-base counters. -/
def setCounter (k : String) (v : Nat) (cs : List (String × Nat)) :
    List (String × Nat) :=
  (k, v) :: cs.filter (fun q => !(q.1 == k))

/-- The destination directory (writer.rs:101-112): `out/YYYY/MM` or
`out/date-unknown` when dividing by dates, the output root otherwise. -/
def subDirOf (divide : Bool) (out : String) (m : Media) : String :=
  if divide then
    match m.date with
    | some dt => joinPath (joinPath out (pad4 dt.year).asString)
        (pad2 dt.month).asString
    | none => joinPath out "date-unknown"
  else out

/-- One iteration of the assignment loop (writer.rs:92-165) for media `m`:
checkpoint fast path, else base path when admissible, else the collision
loop.  `aw` is the `already_written` map, `existing` the pre-scanned
existing-files map. -/
def assignStep (divide : Bool) (out : String)
    (existing : List (String × Nat)) (aw : List (String × String))
    (st : AssignState) (m : Media) : AssignState :=
  match List.lookup m.zip_path aw with
  | some saved => { st with assignments := st.assignments ++ [saved] }
  | none =>
      let subDir := subDirOf divide out m
      let base := joinPath subDir m.filename
      let c0 := (List.lookup base st.counters).getD 0
      let exSize := List.lookup base existing
      if (c0 = 0 ∧ base ∉ st.used) ∧ (exSize = some m.size ∨ exSize = none)
      then
        { counters := setCounter base c0 st.counters,
          used := base :: st.used,
          assignments := st.assignments ++ [base] }
      else
        match findFree st.used existing subDir
            ((rustFileStem m.filename).getD "file")
            ((rustExtension m.filename).getD "")
            (st.used.length + existing.length + 1) c0 with
        | some (k, cand) =>
            { counters := setCounter base k st.counters,
              used := cand :: st.used,
              assignments := st.assignments ++ [cand] }
        | none => st

/-- The whole assignment phase: `used_paths` starts pre-populated with the
checkpoint paths (writer.rs:72-74), and the media are processed in order.
Returns the `assignments` vector. -/
def assignPhase (divide : Bool) (out : String)
    (existing : List (String × Nat)) (aw : List (String × String))
    (media : List Media) : List String :=
  (media.foldl (assignStep divide out existing aw)
    ⟨[], aw.map (fun q => q.2), []⟩).assignments

/-! ### Theorems -/

/-! ### Lemmas about the JSON index -/

theorem probeMethods_append (dir filename : String)
    (jsonDates : List (String × DT)) (l1 l2 : List (String → String)) :
    probeMethods dir filename jsonDates (l1 ++ l2) =
      match probeMethods dir filename jsonDates l1 with
      | some d => some d
      | none => probeMethods dir filename jsonDates l2 := by
  induction l1 with
  | nil => simp [probeMethods]
  | cons f fs ih =>
      simp only [List.cons_append, probeMethods]
      cases List.lookup (mkPath dir (f filename)) jsonDates <;> simp [ih]

theorem lookup_insertFold (dt : DT) (pairs : List (String × DT))
    (hv : ∀ p ∈ pairs, p.2 = dt) (m : List (String × DT)) (k : String) :
    List.lookup k (pairs.foldl insertIfAbsent m) =
      match List.lookup k m with
      | some v => some v
      | none => if k ∈ pairs.map Prod.fst then some dt else none := by
  induction pairs generalizing m with
  | nil =>
      simp only [List.foldl_nil, List.map_nil, List.not_mem_nil, if_false]
      cases List.lookup k m <;> rfl
  | cons p rest ih =>
      obtain ⟨k0, v0⟩ := p
      have hv0 : v0 = dt := hv (k0, v0) (List.mem_cons_self _ _)
      have hvrest : ∀ q ∈ rest, q.2 = dt := fun q hq => hv q (List.mem_cons_of_mem _ hq)
      simp only [List.foldl_cons]
      rw [ih hvrest]
      unfold insertIfAbsent
      simp only [List.map_cons, List.mem_cons]
      cases hm : List.lookup k m with
      | some v =>
          by_cases hb : (List.lookup k0 m).isSome
          · rw [if_pos hb, hm]
          · rw [if_neg hb]
            have hkk : k ≠ k0 := by
              intro h; rw [h] at hm; rw [hm] at hb; simp at hb
            have hbeq : (k == k0) = false := beq_eq_false_iff_ne.mpr hkk
            simp [List.lookup, hbeq, hm]
      | none =>
          by_cases hb : (List.lookup k0 m).isSome
          · rw [if_pos hb, hm]
            have hkk : k ≠ k0 := by
              intro h; rw [h] at hm; rw [hm] at hb; simp at hb
            rw [if_congr (or_iff_right hkk) rfl rfl]
          · rw [if_neg hb]
            by_cases hkk : k = k0
            · subst hkk
              simp [List.lookup, hm, hv0]
            · have hbeq : (k == k0) = false := beq_eq_false_iff_ne.mpr hkk
              simp only [List.lookup, hbeq, hm]
              rw [if_congr (or_iff_right hkk) rfl rfl]

/-- C10: `find_json_date` is independent of its `tryhard` flag — the two
extra transformations are probed at the same position of the sequence
either way. -/
theorem find_json_date_tryhard_independent (nfc : String → String)
    (zipPath filename : String) (jsonDates : List (String × DT)) :
    find_json_date nfc zipPath filename jsonDates true =
      find_json_date nfc zipPath filename jsonDates false := by
  have key : ∀ dir : String,
      (match probeMethods dir filename jsonDates
          (baseMethods nfc ++ tryhardMethods) with
        | some d => some d
        | none => none) =
      (match probeMethods dir filename jsonDates (baseMethods nfc ++ []) with
        | some d => some d
        | none => probeMethods dir filename jsonDates tryhardMethods) := by
    intro dir
    rw [List.append_nil, probeMethods_append]
    cases probeMethods dir filename jsonDates (baseMethods nfc) with
    | some d => rfl
    | none =>
        cases probeMethods dir filename jsonDates tryhardMethods with
        | some d => rfl
        | none => rfl
  exact key (parentDir zipPath)

/-- C1: registering a sidecar pre-expands all seven name-transformation
variants into the date index; lookup is a single exact probe, so any
archive path equal to a variant key of a fresh sidecar resolves to the
sidecar's date. -/
theorem json_preexpanded_lookup (nfc : String → String)
    (jsonPath mediaName : String) (dt : DT) (m : List (String × DT))
    (f : String → String) (hf : f ∈ sevenVariants nfc)
    (hbase : jsonBaseName jsonPath = some mediaName) :
    (find_json_date_indexed (mkPath (parentDir jsonPath) (f mediaName))
        (register_json_date nfc jsonPath dt m)).isSome = true
      ∧ (List.lookup (mkPath (parentDir jsonPath) (f mediaName)) m = none →
          find_json_date_indexed (mkPath (parentDir jsonPath) (f mediaName))
            (register_json_date nfc jsonPath dt m) = some dt)
      ∧ (∀ q : String, ∀ m' : List (String × DT),
          find_json_date_indexed q m' = List.lookup q m') := by
  have hpairs : ∀ p ∈ (sevenVariants nfc).map
      (fun g => (mkPath (parentDir jsonPath) (g mediaName), dt)), p.2 = dt := by
    intro p hp
    obtain ⟨g, _, rfl⟩ := List.mem_map.mp hp
    rfl
  have hmem : mkPath (parentDir jsonPath) (f mediaName) ∈
      ((sevenVariants nfc).map
        (fun g => (mkPath (parentDir jsonPath) (g mediaName), dt))).map Prod.fst := by
    rw [List.map_map]
    exact List.mem_map.mpr ⟨f, hf, rfl⟩
  have hreg : register_json_date nfc jsonPath dt m =
      ((sevenVariants nfc).map
        (fun g => (mkPath (parentDir jsonPath) (g mediaName), dt))).foldl
        insertIfAbsent m := by
    unfold register_json_date
    rw [hbase]
  have hlook := lookup_insertFold dt _ hpairs m
      (mkPath (parentDir jsonPath) (f mediaName))
  refine ⟨?_, ?_, fun q m' => rfl⟩
  · show (List.lookup _ _).isSome = true
    rw [hreg, hlook]
    cases hm : List.lookup (mkPath (parentDir jsonPath) (f mediaName)) m
    · rw [if_pos hmem]; rfl
    · rfl
  · intro hnone
    show List.lookup _ _ = some dt
    rw [hreg, hlook, hnone]
    exact if_pos hmem

/-- C1 witness: a concrete sidecar at `d/a.jpg.json` registered into an
empty index; the identity variant key `d/a.jpg` resolves to its date. -/
theorem json_preexpanded_lookup_witness :
    (find_json_date_indexed (mkPath (parentDir "d/a.jpg.json")
        ((fun s => s) "a.jpg"))
      (register_json_date (fun s => s) "d/a.jpg.json" ⟨2023, 9, 1, 0, 0, 0⟩
        [])).isSome = true
    ∧ (List.lookup (mkPath (parentDir "d/a.jpg.json") ((fun s => s) "a.jpg"))
        ([] : List (String × DT)) = none →
        find_json_date_indexed (mkPath (parentDir "d/a.jpg.json")
            ((fun s => s) "a.jpg"))
          (register_json_date (fun s => s) "d/a.jpg.json"
            ⟨2023, 9, 1, 0, 0, 0⟩ []) = some ⟨2023, 9, 1, 0, 0, 0⟩)
    ∧ (∀ q : String, ∀ m' : List (String × DT),
        find_json_date_indexed q m' = List.lookup q m') :=
  json_preexpanded_lookup (fun s => s) "d/a.jpg.json" "a.jpg"
    ⟨2023, 9, 1, 0, 0, 0⟩ [] (fun s => s) (List.Mem.head _) (by decide)

/-! ### Extras matcher and album extraction: theorems -/

theorem removeExtraGo_spec (normalized : String) (fmts : List String) :
    ((∀ e ∈ fmts, lastOccur e (toLower normalized) = none) →
      removeExtraGo normalized fmts = normalized)
    ∧ ((∃ e ∈ fmts, (lastOccur e (toLower normalized)).isSome = true) →
      ∃ e ∈ fmts, ∃ pos, lastOccur e (toLower normalized) = some pos ∧
        removeExtraGo normalized fmts = removeRange normalized pos e.length) := by
  induction fmts with
  | nil =>
      refine ⟨fun _ => rfl, ?_⟩
      rintro ⟨e, he, _⟩
      exact absurd he (List.not_mem_nil e)
  | cons e0 rest ih =>
      constructor
      · intro hall
        have h0 := hall e0 (List.mem_cons_self _ _)
        show (match lastOccur e0 (toLower normalized) with
          | some pos => removeRange normalized pos e0.length
          | none => removeExtraGo normalized rest) = normalized
        rw [h0]
        exact ih.1 (fun e he => hall e (List.mem_cons_of_mem _ he))
      · rintro ⟨e, he, hocc⟩
        show ∃ e ∈ e0 :: rest, ∃ pos,
          lastOccur e (toLower normalized) = some pos ∧
          (match lastOccur e0 (toLower normalized) with
            | some pos => removeRange normalized pos e0.length
            | none => removeExtraGo normalized rest) =
            removeRange normalized pos e.length
        cases h0 : lastOccur e0 (toLower normalized) with
        | some pos => exact ⟨e0, List.mem_cons_self _ _, pos, h0, rfl⟩
        | none =>
            have hne : e ≠ e0 := by
              intro h; rw [h, h0] at hocc; simp at hocc
            have he' : e ∈ rest := by
              cases List.mem_cons.mp he with
              | inl h => exact absurd h hne
              | inr h => exact h
            obtain ⟨e', he', pos, hl, hr⟩ := ih.2 ⟨e, he', hocc⟩
            exact ⟨e', List.mem_cons_of_mem _ he', pos, hl, hr⟩

/-- C7: `is_extra` holds exactly when the NFC-normalized lowercase stem ends
with a listed localized "-edited" suffix, and `remove_extra` either returns
the normalized name unchanged (no suffix occurs anywhere,
case-insensitively) or removes the last occurrence of a listed suffix,
preserving the surrounding characters of the normalized name. -/
theorem extras_matcher_spec (nfc : String → String) (stem name : String) :
    (is_extra nfc stem = true ↔
      ∃ e ∈ extraFormats, strEndsWith (nfc (toLower stem)) e = true)
    ∧ ((∀ e ∈ extraFormats, lastOccur e (toLower (nfc name)) = none) →
      remove_extra nfc name = nfc name)
    ∧ ((∃ e ∈ extraFormats, (lastOccur e (toLower (nfc name))).isSome = true) →
      ∃ e ∈ extraFormats, ∃ pos,
        lastOccur e (toLower (nfc name)) = some pos ∧
        remove_extra nfc name = removeRange (nfc name) pos e.length) := by
  refine ⟨?_, (removeExtraGo_spec (nfc name) extraFormats).1,
    (removeExtraGo_spec (nfc name) extraFormats).2⟩
  unfold is_extra
  exact List.any_eq_true

/-- C7 witness: the English suffix on concrete names, upper and lower
case. -/
theorem extras_matcher_spec_witness :
    is_extra (fun s => s) "photo-EDITED" = true
    ∧ remove_extra (fun s => s) "photo-EDITED.jpg" = "photo.jpg"
    ∧ is_extra (fun s => s) "photo" = false := by
  refine ⟨by decide, by decide, by decide⟩

theorem extractAlbumScan_spec (l : List String) (name : String) :
    extractAlbumScan l = some name ↔
      ∃ i, i + 2 < l.length
        ∧ albumHit (l.getD i "") (l.getD (i + 1) "") = true
        ∧ (∀ j, j < i → albumHit (l.getD j "") (l.getD (j + 1) "") = false)
        ∧ name = l.getD (i + 1) "" := by
  induction l with
  | nil =>
      constructor
      · intro h; simp [extractAlbumScan] at h
      · rintro ⟨i, hi, -⟩
        simp only [List.length_nil] at hi; omega
  | cons p tail ih =>
      cases tail with
      | nil =>
          constructor
          · intro h; simp [extractAlbumScan] at h
          · rintro ⟨i, hi, -⟩
            simp only [List.length_nil, List.length_cons] at hi; omega
      | cons f tail2 =>
          cases tail2 with
          | nil =>
              constructor
              · intro h; simp [extractAlbumScan] at h
              · rintro ⟨i, hi, -⟩
                simp only [List.length_nil, List.length_cons] at hi; omega
          | cons x rest =>
              have hunf : extractAlbumScan (p :: f :: x :: rest) =
                  if albumHit p f then some f
                  else extractAlbumScan (f :: x :: rest) := rfl
              rw [hunf]
              by_cases hpf : albumHit p f = true
              · rw [if_pos hpf]
                constructor
                · intro h
                  injection h with h
                  refine ⟨0, by simp, by simpa using hpf, fun j hj => absurd hj (Nat.not_lt_zero j), ?_⟩
                  simp [h.symm]
                · rintro ⟨i, hlen, hhit, hprev, hname⟩
                  cases i with
                  | zero =>
                      simp only [List.getD_cons_succ, List.getD_cons_zero] at hname
                      rw [hname]
                  | succ i' =>
                      have h0 := hprev 0 (Nat.succ_pos i')
                      simp only [List.getD_cons_zero, List.getD_cons_succ] at h0
                      rw [hpf] at h0
                      exact absurd h0 (by simp)
              · rw [if_neg hpf]
                have hpf' : albumHit p f = false := by
                  revert hpf; cases albumHit p f <;> simp
                rw [ih]
                constructor
                · rintro ⟨i, hlen, hhit, hprev, hname⟩
                  refine ⟨i + 1, by simp at hlen ⊢; omega, by simpa using hhit,
                    ?_, by simpa using hname⟩
                  intro j hj
                  cases j with
                  | zero => simpa using hpf'
                  | succ j' => simpa using hprev j' (by omega)
                · rintro ⟨i, hlen, hhit, hprev, hname⟩
                  cases i with
                  | zero =>
                      simp only [List.getD_cons_zero, List.getD_cons_succ] at hhit
                      exact absurd hhit hpf
                  | succ i' =>
                      refine ⟨i', by simp at hlen ⊢; omega, by simpa using hhit,
                        ?_, by simpa using hname⟩
                      intro j hj
                      have := hprev (j + 1) (by omega)
                      simpa using this

/-- C6 (amended): `extract_album_name` returns the component after the first
component that starts with `"Google"`, contains a localized "Photos" token,
and is followed by a nonempty non-year-folder component with at least one
further component after it; `none` when no such position exists. -/
theorem extract_album_name_spec (zipPath name : String) :
    extract_album_name zipPath = some name ↔
      ∃ i, i + 2 < (splitOnChar '/' zipPath).length
        ∧ albumHit ((splitOnChar '/' zipPath).getD i "")
            ((splitOnChar '/' zipPath).getD (i + 1) "") = true
        ∧ (∀ j, j < i → albumHit ((splitOnChar '/' zipPath).getD j "")
            ((splitOnChar '/' zipPath).getD (j + 1) "") = false)
        ∧ name = (splitOnChar '/' zipPath).getD (i + 1) "" :=
  extractAlbumScan_spec (splitOnChar '/' zipPath) name

/-- C6 counterexample: the claim as stated requires no `"Google"` anchor on
the token-bearing component.  On `Photos/Album/x.jpg` the component
`Photos` contains the token `hoto`, is followed by the nonempty non-year
component `Album`, which precedes a further component — yet the code
returns `none`, because `Photos` does not start with `"Google"`. -/
theorem extract_album_name_counterexample :
    extract_album_name "Photos/Album/x.jpg" = none
    ∧ containsPhotosToken "Photos" = true
    ∧ ("Album" ≠ "")
    ∧ is_year_folder "Album" = false
    ∧ (splitOnChar '/' "Photos/Album/x.jpg").length = 3 := by
  refine ⟨by decide, by decide, by decide, by decide, by decide⟩

/-- C6 witness: a real Takeout album path resolves to its album name. -/
theorem extract_album_name_spec_witness :
    extract_album_name "Takeout/Google Photos/Trip/IMG_0003.jpg" = some "Trip" := by
  decide

theorem digitChar_isDigit (d : Nat) : (digitChar d).isDigit = true := by
  rcases d with _|_|_|_|_|_|_|_|_|d <;> rfl

theorem digitChar_not_ws (d : Nat) : (digitChar d).isWhitespace = false := by
  rcases d with _|_|_|_|_|_|_|_|_|d <;> rfl

theorem cleanChar_digitChar (d : Nat) : cleanChar (digitChar d) = digitChar d := by
  rcases d with _|_|_|_|_|_|_|_|_|d <;> rfl

theorem digitChar_ne_space (d : Nat) : digitChar d ≠ ' ' := by
  rcases d with _|_|_|_|_|_|_|_|_|d
  all_goals first
  | decide
  | exact (by decide : ('9' : Char) ≠ ' ')

theorem digitVal_digitChar (d : Nat) (hd : d < 10) :
    (digitChar d).toNat - 48 = d := by
  interval_cases d <;> rfl

theorem cleanSeps_toList (s : String) :
    (cleanSeps s).toList = s.toList.map cleanChar := by
  have hrw : (cleanSeps s).toList =
      (((s.toList.map (fun c => if c = '-' then ':' else c)).map
        (fun c => if c = '/' then ':' else c)).map
        (fun c => if c = '\\' then ':' else c)).map
        (fun c => if c = '.' then ':' else c) := rfl
  rw [hrw]
  simp only [List.map_map]
  apply List.map_congr_left
  intro c _
  simp only [Function.comp_apply]
  by_cases h1 : c = '-'
  · subst h1; rfl
  · by_cases h2 : c = '/'
    · subst h2; rfl
    · by_cases h3 : c = '\\'
      · subst h3; rfl
      · by_cases h4 : c = '.'
        · subst h4; rfl
        · simp [cleanChar, h1, h2, h3, h4]

theorem strExt {s t : String} (h : s.toList = t.toList) : s = t := by
  cases s; cases t; exact congrArg String.mk h

theorem cleanChar_idem (c : Char) : cleanChar (cleanChar c) = cleanChar c := by
  by_cases h : c = '-' ∨ c = '/' ∨ c = '\\' ∨ c = '.'
  · unfold cleanChar
    rw [if_pos h]; rfl
  · unfold cleanChar
    rw [if_neg h, if_neg h]

theorem cleanSeps_idem (s : String) : cleanSeps (cleanSeps s) = cleanSeps s := by
  apply strExt
  rw [cleanSeps_toList, cleanSeps_toList, List.map_map]
  apply List.map_congr_left
  intro c _
  simp only [Function.comp_apply]
  exact cleanChar_idem c

theorem takeDigits_all (ds rest : List Char) (h : ds.all Char.isDigit = true) :
    takeDigits ds.length (ds ++ rest) = (ds, rest) := by
  induction ds with
  | nil => rfl
  | cons c cs ih =>
      simp only [List.all_cons, Bool.and_eq_true] at h
      show takeDigits (cs.length + 1) (c :: (cs ++ rest)) = _
      simp only [takeDigits, h.1, if_pos]
      rw [ih h.2]

theorem parseNum_exact (ds rest : List Char) (h : ds.all Char.isDigit = true)
    (hne : ds ≠ []) : parseNum ds.length (ds ++ rest) = some (digitsVal ds, rest) := by
  have hemp : ds.isEmpty = false := by
    cases ds with
    | nil => exact absurd rfl hne
    | cons a l => rfl
  unfold parseNum
  rw [takeDigits_all ds rest h]
  simp [hemp]

theorem parseFields_fld (w : Nat) (fmt : List FmtItem) (ds rest : List Char)
    (h : ds.all Char.isDigit = true) (hw : ds.length = w) (hne : ds ≠ []) :
    parseFields (.fld w :: fmt) (ds ++ rest) =
      (parseFields fmt rest).map (fun p => (digitsVal ds :: p.1, p.2)) := by
  subst hw
  show (match parseNum ds.length (ds ++ rest) with
    | some (n, cs') =>
        match parseFields fmt cs' with
        | some (ns, cs'') => some (n :: ns, cs'')
        | none => none
    | none => none) = _
  rw [parseNum_exact ds rest h hne]
  show (match parseFields fmt rest with
    | some (ns, cs'') => some (digitsVal ds :: ns, cs'')
    | none => none) = _
  cases parseFields fmt rest with
  | some p => cases p; rfl
  | none => rfl

theorem parseFields_lit (c : Char) (fmt : List FmtItem) (rest : List Char) :
    parseFields (.lit c :: fmt) (c :: rest) = parseFields fmt rest := by
  simp [parseFields]

theorem parseFields_ws (fmt : List FmtItem) (cs : List Char) :
    parseFields (.ws :: fmt) cs = parseFields fmt (skipWs cs) := rfl

theorem pad2_all_digit (n : Nat) : (pad2 n).all Char.isDigit = true := by
  simp [pad2, digitChar_isDigit]

theorem pad4_all_digit (n : Nat) : (pad4 n).all Char.isDigit = true := by
  simp [pad4, digitChar_isDigit]

theorem digitsVal_pad2 (n : Nat) (h : n < 100) : digitsVal (pad2 n) = n := by
  simp only [digitsVal, pad2, List.foldl_cons, List.foldl_nil]
  rw [digitVal_digitChar _ (Nat.mod_lt _ (by norm_num)),
    digitVal_digitChar _ (Nat.mod_lt _ (by norm_num))]
  omega

theorem digitsVal_pad4 (n : Nat) (h : n ≤ 9999) : digitsVal (pad4 n) = n := by
  simp only [digitsVal, pad4, List.foldl_cons, List.foldl_nil]
  rw [digitVal_digitChar _ (Nat.mod_lt _ (by norm_num)),
    digitVal_digitChar _ (Nat.mod_lt _ (by norm_num)),
    digitVal_digitChar _ (Nat.mod_lt _ (by norm_num)),
    digitVal_digitChar _ (Nat.mod_lt _ (by norm_num))]
  omega

theorem parseFields_fld2_pad (n : Nat) (hn : n < 100) (fmt : List FmtItem)
    (rest : List Char) :
    parseFields (.fld 2 :: fmt) (pad2 n ++ rest) =
      (parseFields fmt rest).map (fun p => (n :: p.1, p.2)) := by
  rw [parseFields_fld 2 fmt (pad2 n) rest (pad2_all_digit n) rfl (by simp [pad2]),
    digitsVal_pad2 n hn]

theorem parseFields_fld4_pad (n : Nat) (hn : n ≤ 9999) (fmt : List FmtItem)
    (rest : List Char) :
    parseFields (.fld 4 :: fmt) (pad4 n ++ rest) =
      (parseFields fmt rest).map (fun p => (n :: p.1, p.2)) := by
  rw [parseFields_fld 4 fmt (pad4 n) rest (pad4_all_digit n) rfl (by simp [pad4]),
    digitsVal_pad4 n hn]

theorem skipWs_space_pad2 (n : Nat) (rest : List Char) :
    skipWs (' ' :: (pad2 n ++ rest)) = pad2 n ++ rest := by
  simp [pad2, skipWs, List.dropWhile, digitChar_not_ws]

theorem daysInMonth_le_31 (y m : Nat) : daysInMonth y m ≤ 31 := by
  unfold daysInMonth
  split
  · split <;> norm_num
  · split <;> norm_num

theorem validDate_fields (y m d : Nat) (h : validDate y m d = true) :
    1 ≤ m ∧ m ≤ 12 ∧ 1 ≤ d ∧ d ≤ daysInMonth y m := by
  exact of_decide_eq_true h

theorem pad4_ne_space (n : Nat) (c : Char) (h : c ∈ pad4 n) : c ≠ ' ' := by
  simp only [pad4, List.mem_cons, List.not_mem_nil, or_false] at h
  rcases h with rfl | rfl | rfl | rfl <;> exact digitChar_ne_space _

theorem pad2_ne_space (n : Nat) (c : Char) (h : c ∈ pad2 n) : c ≠ ' ' := by
  simp only [pad2, List.mem_cons, List.not_mem_nil, or_false] at h
  rcases h with rfl | rfl <;> exact digitChar_ne_space _

theorem splitAux_noSpace (cs : List Char) (h : ∀ c ∈ cs, c ≠ ' ') :
    splitOnCharAux ' ' cs = [cs] := by
  induction cs with
  | nil => rfl
  | cons c cs ih =>
      have hc : c ≠ ' ' := h c (List.mem_cons_self _ _)
      have hrest := ih (fun x hx => h x (List.mem_cons_of_mem _ hx))
      simp [splitOnCharAux, hrest, hc]

theorem pad2_map_cleanChar (n : Nat) : (pad2 n).map cleanChar = pad2 n := by
  simp [pad2, cleanChar_digitChar]

theorem pad4_map_cleanChar (n : Nat) : (pad4 n).map cleanChar = pad4 n := by
  simp [pad4, cleanChar_digitChar]

/-- C9: separator normalization is idempotent, so any `- / \ .` separator
variant parses exactly as the `:` form; a full rendered value
`YYYY:MM:DD HH:MM:SS` parses to its components, and a time-less rendered
value `YYYY:MM:DD` parses to midnight of that date. -/
theorem exif_datetime_parse_spec :
    (∀ s : String, parse_exif_datetime (cleanSeps s) = parse_exif_datetime s)
    ∧ (∀ y m d h mi s : Nat, y ≤ 9999 → validDate y m d = true → h < 24 →
        mi < 60 → s < 60 →
        parse_exif_datetime (renderExifDT y m d h mi s) = some ⟨y, m, d, h, mi, s⟩)
    ∧ (∀ y m d : Nat, y ≤ 9999 → validDate y m d = true →
        parse_exif_datetime (renderExifDate y m d) = some ⟨y, m, d, 0, 0, 0⟩) := by
  refine ⟨?_, ?_, ?_⟩
  · intro s
    unfold parse_exif_datetime
    rw [cleanSeps_idem]
  · intro y m d h mi s hy hv hh hmi hs
    obtain ⟨hm1, hm2, hd1, hd2⟩ := validDate_fields y m d hv
    have hm100 : m < 100 := by omega
    have hd100 : d < 100 := by have := daysInMonth_le_31 y m; omega
    have hclean : cleanSeps (renderExifDT y m d h mi s) =
        renderExifDT y m d h mi s := by
      apply strExt
      rw [cleanSeps_toList]
      show (pad4 y ++ ':' :: (pad2 m ++ ':' :: (pad2 d ++ ' ' ::
        (pad2 h ++ ':' :: (pad2 mi ++ ':' :: pad2 s))))).map cleanChar = _
      simp only [List.map_append, List.map_cons, List.map_nil,
        pad2_map_cleanChar, pad4_map_cleanChar,
        show cleanChar ':' = ':' from rfl, show cleanChar ' ' = ' ' from rfl]
      rfl
    have hpf : parseFields fmtExifDateTime
        ((renderExifDT y m d h mi s).toList) = some ([y, m, d, h, mi, s], []) := by
      show parseFields fmtExifDateTime (pad4 y ++ ':' :: (pad2 m ++ ':' ::
        (pad2 d ++ ' ' :: (pad2 h ++ ':' :: (pad2 mi ++ ':' :: pad2 s))))) = _
      rw [show fmtExifDateTime = FmtItem.fld 4 :: FmtItem.lit ':' ::
        FmtItem.fld 2 :: FmtItem.lit ':' :: FmtItem.fld 2 :: FmtItem.ws ::
        FmtItem.fld 2 :: FmtItem.lit ':' :: FmtItem.fld 2 :: FmtItem.lit ':' ::
        FmtItem.fld 2 :: [] from rfl]
      rw [parseFields_fld4_pad y hy, parseFields_lit,
        parseFields_fld2_pad m hm100, parseFields_lit,
        parseFields_fld2_pad d hd100, parseFields_ws, skipWs_space_pad2,
        parseFields_fld2_pad h (by omega), parseFields_lit,
        parseFields_fld2_pad mi (by omega), parseFields_lit,
        ← List.append_nil (pad2 s), parseFields_fld2_pad s (by omega)]
      rfl
    have hpd : parseDateTime fmtExifDateTime
        ((renderExifDT y m d h mi s).toList) = some ⟨y, m, d, h, mi, s⟩ := by
      unfold parseDateTime
      rw [hpf]
      show mkDateTime y m d h mi s = _
      unfold mkDateTime
      rw [if_pos ⟨hv, hh, hmi, hs⟩]
    unfold parse_exif_datetime
    rw [hclean, hpd]
  · intro y m d hy hv
    obtain ⟨hm1, hm2, hd1, hd2⟩ := validDate_fields y m d hv
    have hm100 : m < 100 := by omega
    have hd100 : d < 100 := by have := daysInMonth_le_31 y m; omega
    have hclean : cleanSeps (renderExifDate y m d) = renderExifDate y m d := by
      apply strExt
      rw [cleanSeps_toList]
      show (pad4 y ++ ':' :: (pad2 m ++ ':' :: pad2 d)).map cleanChar = _
      simp only [List.map_append, List.map_cons, List.map_nil,
        pad2_map_cleanChar, pad4_map_cleanChar,
        show cleanChar ':' = ':' from rfl]
      rfl
    have hfail : parseDateTime fmtExifDateTime
        ((renderExifDate y m d).toList) = none := by
      unfold parseDateTime
      have hpf : parseFields fmtExifDateTime
          ((renderExifDate y m d).toList) = none := by
        show parseFields fmtExifDateTime
          (pad4 y ++ ':' :: (pad2 m ++ ':' :: pad2 d)) = none
        rw [show fmtExifDateTime = FmtItem.fld 4 :: FmtItem.lit ':' ::
          FmtItem.fld 2 :: FmtItem.lit ':' :: FmtItem.fld 2 :: FmtItem.ws ::
          FmtItem.fld 2 :: FmtItem.lit ':' :: FmtItem.fld 2 :: FmtItem.lit ':' ::
          FmtItem.fld 2 :: [] from rfl]
        rw [parseFields_fld4_pad y hy, parseFields_lit,
          parseFields_fld2_pad m hm100, parseFields_lit,
          ← List.append_nil (pad2 d), parseFields_fld2_pad d hd100]
        rfl
      rw [hpf]
    have hns : ∀ c ∈ (pad4 y ++ ':' :: (pad2 m ++ ':' :: pad2 d)), c ≠ ' ' := by
      intro c hc
      rcases List.mem_append.mp hc with h4 | hrest
      · exact pad4_ne_space y c h4
      · rcases List.mem_cons.mp hrest with rfl | hrest2
        · decide
        · rcases List.mem_append.mp hrest2 with h2 | hrest3
          · exact pad2_ne_space m c h2
          · rcases List.mem_cons.mp hrest3 with rfl | h2
            · decide
            · exact pad2_ne_space d c h2
    have hsplit : splitOnChar ' ' (renderExifDate y m d) =
        [renderExifDate y m d] := by
      show (splitOnCharAux ' '
        (pad4 y ++ ':' :: (pad2 m ++ ':' :: pad2 d))).map List.asString = _
      rw [splitAux_noSpace _ hns]
      rfl
    have hpd2 : parseDateOnly fmtExifDate ((renderExifDate y m d).toList) =
        some ⟨y, m, d, 0, 0, 0⟩ := by
      unfold parseDateOnly
      have hpf2 : parseFields fmtExifDate ((renderExifDate y m d).toList) =
          some ([y, m, d], []) := by
        show parseFields fmtExifDate
          (pad4 y ++ ':' :: (pad2 m ++ ':' :: pad2 d)) = _
        rw [show fmtExifDate = FmtItem.fld 4 :: FmtItem.lit ':' ::
          FmtItem.fld 2 :: FmtItem.lit ':' :: FmtItem.fld 2 :: [] from rfl]
        rw [parseFields_fld4_pad y hy, parseFields_lit,
          parseFields_fld2_pad m hm100, parseFields_lit,
          ← List.append_nil (pad2 d), parseFields_fld2_pad d hd100]
        rfl
      rw [hpf2]
      show mkDateTime y m d 0 0 0 = _
      unfold mkDateTime
      rw [if_pos ⟨hv, by norm_num, by norm_num, by norm_num⟩]
    unfold parse_exif_datetime
    rw [hclean, hfail, hsplit]
    exact hpd2

/-- C9 witness: a `/`-separated full value and a `:`-separated date-only
value on concrete inputs. -/
theorem exif_datetime_parse_spec_witness :
    parse_exif_datetime "2023/09/01 12:34:56" = some ⟨2023, 9, 1, 12, 34, 56⟩
    ∧ parse_exif_datetime "2023:09:01" = some ⟨2023, 9, 1, 0, 0, 0⟩ := by
  constructor
  · have ha := exif_datetime_parse_spec.1 "2023/09/01 12:34:56"
    have hb := exif_datetime_parse_spec.2.1 2023 9 1 12 34 56 (by norm_num)
      (by decide) (by norm_num) (by norm_num) (by norm_num)
    have hcl : cleanSeps "2023/09/01 12:34:56" = renderExifDT 2023 9 1 12 34 56 := by
      decide
    rw [← ha, hcl]
    exact hb
  · have hc := exif_datetime_parse_spec.2.2 2023 9 1 (by norm_num) (by decide)
    have hr : renderExifDate 2023 9 1 = "2023:09:01" := by decide
    rw [← hr]
    exact hc

/-! ### Lemmas: `swap_remove` in descending index order removes exactly the
marked positions (as a multiset). -/

theorem swapRemove_perm (l : List Media) (i : Nat) (h : i < l.length) :
    swapRemove l i ~ l.eraseIdx i := by
  induction l generalizing i with
  | nil => simp at h
  | cons c t ih =>
      cases i with
      | zero =>
          cases t with
          | nil => simp [swapRemove]
          | cons b t2 =>
              have hne : (b :: t2 : List Media) ≠ [] := by simp
              show swapRemove (c :: b :: t2) 0 ~ (b :: t2)
              unfold swapRemove
              rw [List.getLast?_cons_cons,
                List.getLast?_eq_getLast _ hne]
              simp only [List.set_cons_zero, List.dropLast_cons₂]
              calc (b :: t2).getLast hne :: (b :: t2).dropLast
                  ~ (b :: t2).dropLast ++ [(b :: t2).getLast hne] :=
                    (List.perm_append_singleton _ _).symm
                _ = b :: t2 := List.dropLast_concat_getLast hne
      | succ j =>
          cases t with
          | nil => simp at h
          | cons b t2 =>
              have hlt : j < (b :: t2).length := by
                simpa using Nat.lt_of_succ_lt_succ h
              have hstep : swapRemove (c :: b :: t2) (j + 1) =
                  c :: swapRemove (b :: t2) j := by
                unfold swapRemove
                rw [List.getLast?_cons_cons]
                have hne : (b :: t2 : List Media) ≠ [] := by simp
                rw [List.getLast?_eq_getLast _ hne]
                simp only [List.set_cons_succ]
                have hset : ∃ x xs, (b :: t2).set j ((b :: t2).getLast hne)
                    = x :: xs := by
                  cases j with
                  | zero => exact ⟨_, _, rfl⟩
                  | succ k => exact ⟨_, _, rfl⟩
                obtain ⟨x, xs, hx⟩ := hset
                rw [hx, List.dropLast_cons₂]
              rw [hstep]
              exact (ih j hlt).cons c

theorem perm_getElem_cons_eraseIdx (l : List Media) (i : Nat)
    (h : i < l.length) : l ~ l.getD i default :: l.eraseIdx i := by
  induction l generalizing i with
  | nil => simp at h
  | cons c t ih =>
      cases i with
      | zero => simp
      | succ j =>
          have hlt : j < t.length := Nat.lt_of_succ_lt_succ (by simpa using h)
          have := (ih j hlt).cons c
          calc c :: t ~ c :: t.getD j default :: t.eraseIdx j := this
            _ ~ t.getD j default :: c :: t.eraseIdx j := List.Perm.swap _ _ _
            _ = (c :: t).getD (j + 1) default ::
                  (c :: t).eraseIdx (j + 1) := by simp

theorem getD_eraseIdx_lt (l : List Media) (i j : Nat) (hj : j < i) :
    (l.eraseIdx i).getD j default = l.getD j default := by
  induction l generalizing i j with
  | nil => simp
  | cons c t ih =>
      cases i with
      | zero => omega
      | succ i' =>
          cases j with
          | zero => simp [List.eraseIdx]
          | succ j' =>
              simp only [List.eraseIdx, List.getD_cons_succ]
              exact ih i' j' (by omega)

theorem getD_eraseIdx_ge (l : List Media) (i j : Nat) (hi : i < l.length)
    (hij : i ≤ j) : (l.eraseIdx i).getD j default = l.getD (j + 1) default := by
  induction l generalizing i j with
  | nil => simp at hi
  | cons c t ih =>
      cases i with
      | zero => simp [List.eraseIdx]
      | succ i' =>
          cases j with
          | zero => omega
          | succ j' =>
              simp only [List.eraseIdx, List.getD_cons_succ]
              exact ih i' j' (by simpa using hi) (by omega)

theorem take_set_ge (l : List Media) (i n : Nat) (v : Media) (h : n ≤ i) :
    (l.set i v).take n = l.take n := by
  induction l generalizing i n with
  | nil => simp
  | cons c t ih =>
      cases n with
      | zero => simp
      | succ k =>
          cases i with
          | zero => omega
          | succ i' =>
              simp only [List.set_cons_succ, List.take_succ_cons]
              rw [ih i' k (by omega)]

theorem swapRemove_length (l : List Media) (i : Nat) (h : l ≠ []) :
    (swapRemove l i).length = l.length - 1 := by
  unfold swapRemove
  rw [List.getLast?_eq_getLast _ h]
  simp

theorem take_swapRemove (l : List Media) (i : Nat) (h : i < l.length) :
    (swapRemove l i).take i = l.take i := by
  have hne : l ≠ [] := by
    intro hl; rw [hl] at h; simp at h
  unfold swapRemove
  rw [List.getLast?_eq_getLast _ hne]
  show List.take i ((l.set i (l.getLast hne)).dropLast) = _
  rw [List.dropLast_eq_take, List.take_take, List.length_set]
  have hmin : min i (l.length - 1) = i := by omega
  rw [hmin, take_set_ge l i i _ (Nat.le_refl i)]

theorem take_eraseIdx (l : List Media) (i : Nat) (h : i ≤ l.length) :
    (l.eraseIdx i).take i = l.take i := by
  rw [List.eraseIdx_eq_take_drop_succ]
  exact List.take_left' (by rw [List.length_take]; omega)

theorem foldl_swapRemove_perm (is : List Nat) :
    ∀ (l1 l2 : List Media) (k : Nat), l1 ~ l2 → l1.take k = l2.take k →
      (∀ i ∈ is, i < k) → k ≤ l1.length →
      List.Pairwise (fun a b => b < a) is →
      (is.foldl swapRemove l1) ~ (is.foldl List.eraseIdx l2) := by
  induction is with
  | nil => intro l1 l2 k hp _ _ _ _; exact hp
  | cons i rest ih =>
      intro l1 l2 k hp htake hbound hk hpair
      have hik : i < k := hbound i (List.mem_cons_self _ _)
      have hil1 : i < l1.length := lt_of_lt_of_le hik hk
      have hlen : l1.length = l2.length := hp.length_eq
      have hil2 : i < l2.length := hlen ▸ hil1
      have hne1 : l1 ≠ [] := by
        intro hl; rw [hl] at hil1; simp at hil1
      have hget : l1.getD i default = l2.getD i default := by
        rw [List.getD_eq_getElem?_getD, List.getD_eq_getElem?_getD,
          ← List.getElem?_take_of_lt (l := l1) hik,
          ← List.getElem?_take_of_lt (l := l2) hik, htake]
      have e1 : swapRemove l1 i ~ l1.eraseIdx i := swapRemove_perm l1 i hil1
      have e2 : l1.eraseIdx i ~ l2.eraseIdx i := by
        have p1 := perm_getElem_cons_eraseIdx l1 i hil1
        have p2 := perm_getElem_cons_eraseIdx l2 i hil2
        have hchain : l1.getD i default :: l1.eraseIdx i ~
            l2.getD i default :: l2.eraseIdx i :=
          p1.symm.trans (hp.trans p2)
        rw [hget] at hchain
        exact hchain.cons_inv
      have hstep : swapRemove l1 i ~ l2.eraseIdx i := e1.trans e2
      have htake' : (swapRemove l1 i).take i = (l2.eraseIdx i).take i := by
        rw [take_swapRemove l1 i hil1, take_eraseIdx l2 i (Nat.le_of_lt hil2)]
        have h1 : l1.take i = List.take i (l1.take k) := by
          rw [List.take_take]
          congr 1
          omega
        have h2 : l2.take i = List.take i (l2.take k) := by
          rw [List.take_take]
          congr 1
          omega
        rw [h1, h2, htake]
      have hpair' := (List.pairwise_cons.mp hpair)
      refine ih (swapRemove l1 i) (l2.eraseIdx i) i hstep htake' ?_ ?_ hpair'.2
      · exact fun j hj => hpair'.1 j hj
      · rw [swapRemove_length l1 i hne1]
        omega

theorem range_map_getD (l : List Media) :
    (List.range l.length).map (fun i => l.getD i default) = l := by
  induction l with
  | nil => rfl
  | cons c t ih =>
      rw [List.length_cons, List.range_succ_eq_map, List.map_cons, List.map_map]
      have h2 : (List.range t.length).map
          ((fun i => (c :: t).getD i default) ∘ Nat.succ) = t := by
        have hfun : ((fun i => (c :: t).getD i default) ∘ Nat.succ)
            = (fun i => t.getD i default) := by
          funext i; simp
        rw [hfun, ih]
      rw [h2]
      simp

theorem foldl_eraseIdx_desc (is : List Nat) :
    ∀ (l : List Media), List.Pairwise (fun a b => b < a) is →
      (∀ i ∈ is, i < l.length) →
      is.foldl List.eraseIdx l =
        ((List.range l.length).filter (fun j => ¬ j ∈ is)).map
          (fun j => l.getD j default) := by
  induction is with
  | nil =>
      intro l _ _
      rw [List.filter_eq_self.mpr (fun a _ => by simp), range_map_getD]
      rfl
  | cons i rest ih =>
      intro l hpair hbound
      have hil : i < l.length := hbound i (List.mem_cons_self _ _)
      obtain ⟨hhead, hrest⟩ := List.pairwise_cons.mp hpair
      simp only [List.foldl_cons]
      rw [ih (l.eraseIdx i) hrest (fun j hj => by
        rw [List.length_eraseIdx_of_lt hil]
        have := hhead j hj
        omega)]
      rw [List.length_eraseIdx_of_lt hil]
      obtain ⟨m, hm⟩ : ∃ m, l.length = i + (m + 1) := ⟨l.length - i - 1, by omega⟩
      rw [hm]
      have hm1 : i + (m + 1) - 1 = i + m := by omega
      rw [hm1, List.range_add, List.range_add, List.filter_append,
        List.filter_append, List.map_append, List.map_append]
      congr 1
      · rw [List.filter_congr (q := fun j => ¬ j ∈ i :: rest) (fun a ha => by
          have hai : a < i := List.mem_range.mp ha
          have : a ≠ i := by omega
          simp [List.mem_cons, this])]
        apply List.map_congr_left
        intro j hj
        have hji : j < i := List.mem_range.mp (List.mem_of_mem_filter hj)
        exact getD_eraseIdx_lt l i j hji
      · have hLkeep : List.filter (fun j => decide (¬ j ∈ rest))
            ((List.range m).map (fun x => i + x)) =
            (List.range m).map (fun x => i + x) := by
          apply List.filter_eq_self.mpr
          intro x hx
          obtain ⟨t, _, rfl⟩ := List.mem_map.mp hx
          simp only [decide_eq_true_eq]
          intro hmem
          exact absurd (hhead _ hmem) (by omega)
        have hkeep2 : ∀ x ∈ List.map ((fun x => i + x) ∘ Nat.succ)
            (List.range m), (fun j => decide (¬ j ∈ i :: rest)) x = true := by
          intro x hx
          obtain ⟨t, _, rfl⟩ := List.mem_map.mp hx
          simp only [Function.comp_apply, decide_eq_true_eq, List.mem_cons]
          rintro (heq | hmem)
          · omega
          · exact absurd (hhead _ hmem) (by omega)
        have hRHS : List.filter (fun j => decide (¬ j ∈ i :: rest))
            ((List.range (m + 1)).map (fun x => i + x)) =
            (List.range m).map (fun t => i + t + 1) := by
          rw [List.range_succ_eq_map, List.map_cons, List.filter_cons]
          rw [if_neg (by simp)]
          rw [List.map_map, List.filter_eq_self.mpr hkeep2]
          apply List.map_congr_left
          intro t _
          simp only [Function.comp_apply]
          omega
        rw [hLkeep, hRHS, List.map_map, List.map_map]
        apply List.map_congr_left
        intro t _
        simp only [Function.comp_apply]
        exact getD_eraseIdx_ge l i (i + t) hil (by omega)

theorem removeIndices_sub_range (media : List Media) :
    ∀ i ∈ removeIndices media, i < media.length := by
  intro i hi
  exact List.mem_range.mp (List.mem_of_mem_filter hi)

theorem deduplicate_perm (media : List Media) :
    deduplicate media ~
      ((List.range media.length).filter
        (fun i => ¬ removedIdx media i = true)).map
        (fun i => media.getD i default) := by
  unfold deduplicate
  have hasc : List.Pairwise (fun a b => a < b) (removeIndices media) :=
    (List.pairwise_lt_range media.length).filter _
  have hdesc : List.Pairwise (fun a b => b < a) (removeIndices media).reverse := by
    rw [List.pairwise_reverse]
    exact hasc
  have hbound : ∀ i ∈ (removeIndices media).reverse, i < media.length := by
    intro i hi
    exact removeIndices_sub_range media i (List.mem_reverse.mp hi)
  have h1 : (removeIndices media).reverse.foldl swapRemove media ~
      (removeIndices media).reverse.foldl List.eraseIdx media :=
    foldl_swapRemove_perm _ media media media.length (List.Perm.refl _) rfl
      hbound (Nat.le_refl _) hdesc
  have h2 := foldl_eraseIdx_desc (removeIndices media).reverse media hdesc hbound
  rw [h2] at h1
  refine h1.trans (List.Perm.of_eq ?_)
  congr 1
  apply List.filter_congr
  intro j hj
  have hjr : j < media.length := List.mem_range.mp hj
  by_cases hrem : removedIdx media j = true
  · have hmem : j ∈ (removeIndices media).reverse := by
      rw [List.mem_reverse]
      exact List.mem_filter.mpr ⟨hj, hrem⟩
    simp [hmem, hrem]
  · have hmem : ¬ j ∈ (removeIndices media).reverse := by
      rw [List.mem_reverse]
      intro hc
      exact hrem (List.of_mem_filter hc)
    simp [hmem, hrem]

theorem nodup_eq_singleton {l : List Nat} {a : Nat} (hnd : l.Nodup)
    (hmem : ∀ x, x ∈ l ↔ x = a) : l = [a] := by
  cases l with
  | nil => exact absurd ((hmem a).mpr rfl) (List.not_mem_nil a)
  | cons x t =>
      have hx : x = a := (hmem x).mp (List.mem_cons_self _ _)
      subst hx
      cases t with
      | nil => rfl
      | cons y t2 =>
          have hy : y = x :=
            (hmem y).mp (List.mem_cons_of_mem _ (List.mem_cons_self _ _))
          subst hy
          exact absurd rfl
            ((List.pairwise_cons.mp hnd).1 y (List.mem_cons_self _ _))

theorem tupleLE_refl (a : Nat × Nat) : tupleLE a a := Or.inr ⟨rfl, Nat.le_refl _⟩

theorem tupleLE_trans {a b c : Nat × Nat} (h1 : tupleLE a b) (h2 : tupleLE b c) :
    tupleLE a c := by
  unfold tupleLE at *
  omega

theorem dedupLE_total (media : List Media) (a b : Nat) :
    (dedupLE media a b || dedupLE media b a) = true := by
  unfold dedupLE
  by_cases h : tupleLE (accLen (media.getD a default)) (accLen (media.getD b default))
  · rw [decide_eq_true h, Bool.true_or]
  · have h2 : tupleLE (accLen (media.getD b default))
        (accLen (media.getD a default)) := by
      unfold tupleLE at *
      omega
    rw [decide_eq_true h2, Bool.or_true]

theorem dedupLE_trans (media : List Media) (a b c : Nat)
    (h1 : dedupLE media a b) (h2 : dedupLE media b c) : dedupLE media a c := by
  unfold dedupLE at *
  exact decide_eq_true (tupleLE_trans (of_decide_eq_true h1) (of_decide_eq_true h2))

theorem groupOf_fields (media : List Media) (sz : Nat) (h : String) (j : Nat)
    (hj : j ∈ groupOf media sz h) :
    (media.getD j default).size = sz ∧ (media.getD j default).hash = some h := by
  unfold groupOf at hj
  have hp := List.of_mem_filter hj
  exact of_decide_eq_true hp

/-- `removedIdx` on a member of the group `(sz, h)`: decided by the sorted
group's tail. -/
theorem removedIdx_of_group (media : List Media) (sz : Nat) (h : String)
    (j : Nat) (hj : j ∈ groupOf media sz h) :
    removedIdx media j =
      (if (groupOf media sz h).length ≤ 1 then false
       else decide (j ∈ ((groupOf media sz h).mergeSort (dedupLE media)).tail)) := by
  obtain ⟨hsz, hhash⟩ := groupOf_fields media sz h j hj
  unfold removedIdx
  rw [hhash, hsz]

/-- C2: after the duplicate-selection phase of `deduplicate`, every
`(size, hash)` group with a present hash retains exactly one record, and
that record's `(date_accuracy, filename byte length)` tuple is minimal
among the group's original members. -/
theorem dedup_group_spec (media : List Media) (sz : Nat) (h : String)
    (hne : groupOf media sz h ≠ []) :
    ((deduplicate media).filter
        (fun m => m.size = sz ∧ m.hash = some h)).length = 1
    ∧ ∀ m ∈ (deduplicate media).filter
        (fun m => m.size = sz ∧ m.hash = some h),
      ∀ j ∈ groupOf media sz h,
        tupleLE (accLen m) (accLen (media.getD j default)) := by
  have hfil : (deduplicate media).filter
      (fun m => decide (m.size = sz ∧ m.hash = some h)) ~
      (((List.range media.length).filter
        (fun i => ¬ removedIdx media i = true)).map
        (fun i => media.getD i default)).filter
        (fun m => decide (m.size = sz ∧ m.hash = some h)) :=
    (deduplicate_perm media).filter _
  rw [List.filter_map, List.filter_filter] at hfil
  -- the combined index predicate: in the group and not removed
  have hpred : ((List.range media.length).filter
      (fun a => ((fun m => decide (m.size = sz ∧ m.hash = some h)) ∘
        (fun i => media.getD i default)) a
        && (¬ removedIdx media a = true))) =
      (groupOf media sz h).filter (fun a => ¬ removedIdx media a = true) := by
    unfold groupOf
    rw [List.filter_filter]
    apply List.filter_congr
    intro a _
    simp only [Function.comp_apply]
    rw [Bool.and_comm]
  rw [hpred] at hfil
  -- the kept part of the group is exactly the sorted head
  have hGnodup : (groupOf media sz h).Nodup := (List.nodup_range _).filter _
  have hsortperm : (groupOf media sz h).mergeSort (dedupLE media) ~
      groupOf media sz h := List.mergeSort_perm _ _
  by_cases hlen : (groupOf media sz h).length ≤ 1
  · -- singleton group: nothing is removed
    obtain ⟨i0, hG⟩ : ∃ i0, groupOf media sz h = [i0] := by
      cases hG : groupOf media sz h with
      | nil => exact absurd hG hne
      | cons x t =>
          cases t with
          | nil => exact ⟨x, rfl⟩
          | cons y t2 => rw [hG] at hlen; simp at hlen
    have hrem : removedIdx media i0 = false := by
      rw [removedIdx_of_group media sz h i0 (by rw [hG]; exact List.mem_cons_self _ _)]
      rw [if_pos hlen]
    have hkeep : (groupOf media sz h).filter
        (fun a => ¬ removedIdx media a = true) = [i0] := by
      rw [hG]
      simp [List.filter, hrem]
    rw [hkeep] at hfil
    have heq : (deduplicate media).filter
        (fun m => decide (m.size = sz ∧ m.hash = some h)) =
        [media.getD i0 default] := List.perm_singleton.mp (by simpa using hfil)
    refine ⟨by rw [heq]; rfl, ?_⟩
    intro m hm j hj
    rw [heq] at hm
    rw [hG] at hj
    have hm' : m = media.getD i0 default := by simpa using hm
    have hj' : j = i0 := by simpa using hj
    rw [hm', hj']
    exact tupleLE_refl _
  · -- proper group: the sorted head survives alone
    have hsne : (groupOf media sz h).mergeSort (dedupLE media) ≠ [] := by
      intro hcon
      have hl := hsortperm.length_eq
      rw [hcon] at hl
      cases hG : groupOf media sz h with
      | nil => exact hne hG
      | cons x t => rw [hG] at hl; simp at hl
    obtain ⟨hd, tl, hcons⟩ : ∃ hd tl,
        (groupOf media sz h).mergeSort (dedupLE media) = hd :: tl := by
      cases hc : (groupOf media sz h).mergeSort (dedupLE media) with
      | nil => exact absurd hc hsne
      | cons x t => exact ⟨x, t, rfl⟩
    have hsortnodup : ((groupOf media sz h).mergeSort (dedupLE media)).Nodup :=
      hsortperm.nodup_iff.mpr hGnodup
    have hd_not_tl : ¬ hd ∈ tl := by
      rw [hcons] at hsortnodup
      intro hmem
      exact ((List.pairwise_cons.mp hsortnodup).1 hd hmem) rfl
    have hrem_iff : ∀ j ∈ groupOf media sz h,
        removedIdx media j = decide (j ∈ tl) := by
      intro j hj
      rw [removedIdx_of_group media sz h j hj, if_neg hlen, hcons]
      rfl
    have hmemiff : ∀ x, x ∈ (groupOf media sz h).filter
        (fun a => ¬ removedIdx media a = true) ↔ x = hd := by
      intro x
      constructor
      · intro hx
        have hxG := List.mem_of_mem_filter hx
        have hxP := List.of_mem_filter hx
        rw [hrem_iff x hxG] at hxP
        have hxtl : ¬ x ∈ tl := by
          intro hc
          rw [decide_eq_true hc] at hxP
          simp at hxP
        have hxsort : x ∈ hd :: tl := by
          rw [← hcons]
          exact hsortperm.symm.subset hxG
        rcases List.mem_cons.mp hxsort with heq | hmem
        · exact heq
        · exact absurd hmem hxtl
      · intro hx
        rw [hx]
        have hdG : hd ∈ groupOf media sz h := by
          apply hsortperm.subset
          rw [hcons]
          exact List.mem_cons_self _ _
        apply List.mem_filter.mpr
        refine ⟨hdG, ?_⟩
        rw [hrem_iff hd hdG]
        simp [hd_not_tl]
    have hkeep : (groupOf media sz h).filter
        (fun a => ¬ removedIdx media a = true) = [hd] :=
      nodup_eq_singleton (hGnodup.filter _) hmemiff
    rw [hkeep] at hfil
    have heq : (deduplicate media).filter
        (fun m => decide (m.size = sz ∧ m.hash = some h)) =
        [media.getD hd default] := List.perm_singleton.mp (by simpa using hfil)
    have hsorted : ((groupOf media sz h).mergeSort (dedupLE media)).Pairwise
        (fun a b => dedupLE media a b) :=
      List.sorted_mergeSort (fun a b c => dedupLE_trans media a b c)
        (fun a b => dedupLE_total media a b) (groupOf media sz h)
    refine ⟨by rw [heq]; rfl, ?_⟩
    intro m hm j hj
    rw [heq] at hm
    have hm' : m = media.getD hd default := by simpa using hm
    rw [hm']
    have hjsort : j ∈ hd :: tl := by
      rw [← hcons]
      exact hsortperm.symm.subset hj
    rcases List.mem_cons.mp hjsort with heqj | hmemj
    · rw [heqj]
      exact tupleLE_refl _
    · rw [hcons] at hsorted
      have hle : dedupLE media hd j := (List.pairwise_cons.mp hsorted).1 j hmemj
      exact of_decide_eq_true hle

theorem dateInv_default : dateInv (default : Media) := by decide

theorem dateInv_getD (l : List Media) (i : Nat) (hl : ∀ m ∈ l, dateInv m) :
    dateInv (l.getD i default) := by
  rw [List.getD_eq_getElem?_getD]
  cases hg : l[i]? with
  | some v =>
      obtain ⟨hlt, hval⟩ := List.getElem?_eq_some.mp hg
      have hv : v ∈ l := by rw [← hval]; exact List.getElem_mem hlt
      exact hl v hv
  | none => exact dateInv_default

theorem extract_date_accuracy (jd : Option DT)
    (me : Option (ExifTag → Option String)) (fn : String) (ag : Bool)
    (r : DateResult) (h : extract_date jd me fn ag = some r) :
    r.accuracy < 255 := by
  unfold extract_date at h
  split at h
  · injection h with h; rw [← h]; norm_num
  · split at h
    · injection h with h; rw [← h]; norm_num
    · split at h
      · obtain ⟨d, hd1, hd2⟩ := Option.map_eq_some'.mp h
        rw [← hd2]
        norm_num
      · exact absurd h (by simp)

theorem jsonGuessPass_inv (jsonDates : List (String × DT)) (allowGuess : Bool)
    (media : List Media) (hinv : ∀ m ∈ media, dateInv m) :
    ∀ m ∈ jsonGuessPass jsonDates allowGuess media, dateInv m := by
  intro m' hm'
  obtain ⟨m, hm, hf⟩ := List.mem_map.mp hm'
  cases hx : extract_date (find_json_date_indexed m.zip_path jsonDates) none
      m.filename allowGuess with
  | some r =>
      rw [hx] at hf
      have hacc := extract_date_accuracy _ _ _ _ _ hx
      rw [← hf]
      constructor
      · intro _; rfl
      · intro _; exact hacc
  | none =>
      rw [hx] at hf
      rw [← hf]
      exact hinv m hm

theorem applyDateResult_inv (l : List Media) (p : Nat × Option DateResult)
    (hl : ∀ m ∈ l, dateInv m)
    (hr : ∀ r, p.2 = some r → r.accuracy < 255) :
    ∀ m ∈ applyDateResult l p, dateInv m := by
  intro m hm
  unfold applyDateResult at hm
  cases hp : p.2 with
  | some r =>
      rw [hp] at hm
      rcases List.mem_or_eq_of_mem_set hm with hmem | heq
      · exact hl m hmem
      · rw [heq]
        constructor
        · intro _; rfl
        · intro _; exact hr r hp
  | none =>
      rw [hp] at hm
      exact hl m hm

theorem foldl_applyDateResult_inv (results : List (Nat × Option DateResult)) :
    ∀ (l : List Media), (∀ m ∈ l, dateInv m) →
      (∀ p ∈ results, ∀ r, p.2 = some r → r.accuracy < 255) →
      ∀ m ∈ results.foldl applyDateResult l, dateInv m := by
  induction results with
  | nil => intro l hl _; exact hl
  | cons p rest ih =>
      intro l hl hres
      simp only [List.foldl_cons]
      exact ih (applyDateResult l p)
        (applyDateResult_inv l p hl (hres p (List.mem_cons_self _ _)))
        (fun q hq => hres q (List.mem_cons_of_mem _ hq))

theorem exifPass_inv (isImage : String → Bool)
    (entryBytes : Nat → Option (ExifTag → Option String)) (allowGuess : Bool)
    (media : List Media) (hinv : ∀ m ∈ media, dateInv m) :
    ∀ m ∈ exifPass isImage entryBytes allowGuess media, dateInv m := by
  apply foldl_applyDateResult_inv _ media hinv
  intro p hp r hr
  obtain ⟨i, _, rfl⟩ := List.mem_map.mp hp
  obtain ⟨oracle, _, hx⟩ := Option.bind_eq_some.mp hr
  exact extract_date_accuracy _ _ _ _ _ hx

theorem albumMergeStep_inv (st : List Media × List ((String × Nat) × Nat))
    (p : String × AlbumEntry) (hst : ∀ m ∈ st.1, dateInv m) :
    ∀ m ∈ (albumMergeStep st p).1, dateInv m := by
  intro m hm
  unfold albumMergeStep at hm
  split at hm
  case h_1 i hl =>
    by_cases hin : p.1 ∈ (st.1.getD i default).albums
    · rw [if_pos hin] at hm
      exact hst m hm
    · rw [if_neg hin] at hm
      rcases List.mem_or_eq_of_mem_set hm with hmem | heq
      · exact hst m hmem
      · rw [heq]
        have hbase := dateInv_getD st.1 i hst
        unfold dateInv at hbase ⊢
        exact hbase
  case h_2 hl =>
    rcases List.mem_append.mp hm with hmem | heq
    · exact hst m hmem
    · have hme : m = { Media.new p.2.zip_path p.2.zip_index p.2.entry_index
          p.2.filename p.2.size with albums := [p.1] } := by simpa using heq
      rw [hme]
      constructor
      · intro h; exact absurd h (by simp [Media.new])
      · intro h; exact absurd h (by simp [Media.new])

theorem albumMerge_inv (albumEntries : List (String × List AlbumEntry))
    (media : List Media) (hinv : ∀ m ∈ media, dateInv m) :
    ∀ m ∈ albumMerge albumEntries media, dateInv m := by
  unfold albumMerge
  generalize (albumEntries.flatMap (fun q => q.2.map (fun ae => (q.1, ae)))) = pairs
  generalize hini : ((media.enum.map
    (fun q => ((q.2.filename, q.2.size), q.1))).reverse) = idx0
  clear hini
  induction pairs generalizing media idx0 with
  | nil => exact hinv
  | cons p rest ih =>
      simp only [List.foldl_cons]
      have hstep := albumMergeStep_inv (media, idx0) p hinv
      exact ih (albumMergeStep (media, idx0) p).1 hstep
        (albumMergeStep (media, idx0) p).2

theorem albumOnlyJsonPass_inv (jsonDates : List (String × DT))
    (allowGuess : Bool) (start : Nat) (media : List Media)
    (hinv : ∀ m ∈ media, dateInv m) :
    ∀ m ∈ albumOnlyJsonPass jsonDates allowGuess start media, dateInv m := by
  intro m hm
  rcases List.mem_append.mp hm with hmem | hmem
  · exact hinv m (List.mem_of_mem_take hmem)
  · exact jsonGuessPass_inv jsonDates allowGuess (media.drop start)
      (fun x hx => hinv x (List.mem_of_mem_drop hx)) m hmem

theorem albumOnlyExifPass_inv (isImage : String → Bool)
    (entryBytes : Nat → Option (ExifTag → Option String)) (allowGuess : Bool)
    (start : Nat) (media : List Media) (hinv : ∀ m ∈ media, dateInv m) :
    ∀ m ∈ albumOnlyExifPass isImage entryBytes allowGuess start media,
      dateInv m := by
  intro m hm
  rcases List.mem_append.mp hm with hmem | hmem
  · exact hinv m (List.mem_of_mem_take hmem)
  · exact exifPass_inv isImage entryBytes allowGuess (media.drop start)
      (fun x hx => hinv x (List.mem_of_mem_drop hx)) m hmem

theorem deduplicate_inv (media : List Media) (hinv : ∀ m ∈ media, dateInv m) :
    ∀ m ∈ deduplicate media, dateInv m := by
  intro m hm
  have hp := (deduplicate_perm media).mem_iff.mp hm
  obtain ⟨i, _, rfl⟩ := List.mem_map.mp hp
  exact dateInv_getD media i hinv

/-- C8: `date_accuracy < 255 ⇔ date.is_some()` — `Media::new` establishes
it (accuracy 255, date none), and every date-setting pass of the pipeline
(JSON/guess, EXIF, album merge, the album-only passes) and deduplication
preserve it: date and accuracy are always assigned together. -/
theorem date_accuracy_invariant :
    (∀ zp zi ei fn sz, (Media.new zp zi ei fn sz).date_accuracy = 255
        ∧ (Media.new zp zi ei fn sz).date = none
        ∧ dateInv (Media.new zp zi ei fn sz))
    ∧ (∀ jsonDates allowGuess media, (∀ m ∈ media, dateInv m) →
        ∀ m ∈ jsonGuessPass jsonDates allowGuess media, dateInv m)
    ∧ (∀ isImage entryBytes allowGuess media, (∀ m ∈ media, dateInv m) →
        ∀ m ∈ exifPass isImage entryBytes allowGuess media, dateInv m)
    ∧ (∀ albumEntries media, (∀ m ∈ media, dateInv m) →
        ∀ m ∈ albumMerge albumEntries media, dateInv m)
    ∧ (∀ jsonDates allowGuess start media, (∀ m ∈ media, dateInv m) →
        ∀ m ∈ albumOnlyJsonPass jsonDates allowGuess start media, dateInv m)
    ∧ (∀ isImage entryBytes allowGuess start media,
        (∀ m ∈ media, dateInv m) →
        ∀ m ∈ albumOnlyExifPass isImage entryBytes allowGuess start media,
          dateInv m)
    ∧ (∀ media, (∀ m ∈ media, dateInv m) →
        ∀ m ∈ deduplicate media, dateInv m) :=
  ⟨fun _ _ _ _ _ => ⟨rfl, rfl, by
      constructor <;> intro h <;> exact absurd h (by simp [Media.new])⟩,
    jsonGuessPass_inv, exifPass_inv, albumMerge_inv, albumOnlyJsonPass_inv,
    albumOnlyExifPass_inv, deduplicate_inv⟩

/-- C8 witness: the invariant on a concrete fresh record and through a
concrete JSON pass. -/
theorem date_accuracy_invariant_witness :
    dateInv (Media.new "Takeout/a.jpg" 0 0 "a.jpg" 7)
    ∧ (∀ m ∈ jsonGuessPass [("Takeout/a.jpg", ⟨2023, 9, 1, 0, 0, 0⟩)] true
        [Media.new "Takeout/a.jpg" 0 0 "a.jpg" 7], dateInv m) :=
  ⟨(date_accuracy_invariant.1 "Takeout/a.jpg" 0 0 "a.jpg" 7).2.2,
    date_accuracy_invariant.2.1 [("Takeout/a.jpg", ⟨2023, 9, 1, 0, 0, 0⟩)] true
      [Media.new "Takeout/a.jpg" 0 0 "a.jpg" 7]
      (fun m hm => by
        rw [List.mem_singleton.mp hm]
        exact (date_accuracy_invariant.1 "Takeout/a.jpg" 0 0 "a.jpg" 7).2.2)⟩

/-- C2 witness: two byte-identical records (size 10, hash `h1`); the
accuracy-0 record `A.jpg` survives alone, with the minimal tuple. -/
theorem dedup_group_spec_witness :
    ((deduplicate
        [⟨"a/A(1).jpg", 0, 1, "A(1).jpg", 10, some "h1", none, 2, []⟩,
         ⟨"a/A.jpg", 0, 0, "A.jpg", 10, some "h1", none, 0, []⟩]).filter
        (fun m => m.size = 10 ∧ m.hash = some "h1")).length = 1
    ∧ ∀ m ∈ (deduplicate
        [⟨"a/A(1).jpg", 0, 1, "A(1).jpg", 10, some "h1", none, 2, []⟩,
         ⟨"a/A.jpg", 0, 0, "A.jpg", 10, some "h1", none, 0, []⟩]).filter
        (fun m => m.size = 10 ∧ m.hash = some "h1"),
      ∀ j ∈ groupOf
        [⟨"a/A(1).jpg", 0, 1, "A(1).jpg", 10, some "h1", none, 2, []⟩,
         ⟨"a/A.jpg", 0, 0, "A.jpg", 10, some "h1", none, 0, []⟩] 10 "h1",
        tupleLE (accLen m)
          (accLen (List.getD
            [⟨"a/A(1).jpg", 0, 1, "A(1).jpg", 10, some "h1", none, 2, []⟩,
             ⟨"a/A.jpg", 0, 0, "A.jpg", 10, some "h1", none, 0, []⟩]
            j default)) :=
  dedup_group_spec
    [⟨"a/A(1).jpg", 0, 1, "A(1).jpg", 10, some "h1", none, 2, []⟩,
     ⟨"a/A.jpg", 0, 0, "A.jpg", 10, some "h1", none, 0, []⟩]
    10 "h1" (by decide)

theorem strAppend_left_cancel {s a b : String} (h : s ++ a = s ++ b) :
    a = b := by
  have hd := congrArg String.data h
  simp only [String.data_append] at hd
  apply String.ext
  exact List.append_cancel_left hd

theorem strAppend_right_cancel {s a b : String} (h : a ++ s = b ++ s) :
    a = b := by
  have hd := congrArg String.data h
  simp only [String.data_append] at hd
  apply String.ext
  exact List.append_cancel_right hd

theorem lookup_eq_none_of_keys_ne {β : Type} (k : String)
    (l : List (String × β)) (h : ∀ q ∈ l, q.1 ≠ k) :
    List.lookup k l = none := by
  induction l with
  | nil => rfl
  | cons q rest ih =>
      obtain ⟨k', v⟩ := q
      have hk' : k' ≠ k := h (k', v) (List.mem_cons_self _ _)
      have hbeq : (k == k') = false := by
        rw [beq_eq_false_iff_ne]
        exact fun he => hk' he.symm
      simp only [List.lookup, hbeq]
      exact ih (fun q hq => h q (List.mem_cons_of_mem _ hq))

theorem lookup_filterKey {β : Type} (k : String) (l : List (String × β)) :
    List.lookup k (l.filter (fun q => !(q.1 == k))) = none := by
  apply lookup_eq_none_of_keys_ne
  intro q hq
  have hp := List.of_mem_filter hq
  intro he
  rw [he] at hp
  simp at hp

theorem lookup_filterKey_ne {β : Type} (k k' : String) (hne : k ≠ k')
    (l : List (String × β)) :
    List.lookup k (l.filter (fun q => !(q.1 == k'))) = List.lookup k l := by
  induction l with
  | nil => rfl
  | cons q rest ih =>
      obtain ⟨a, v⟩ := q
      by_cases ha : a = k'
      · have : (!(a == k')) = false := by simp [ha]
        rw [List.filter_cons, this]
        simp only [Bool.false_eq_true, if_false]
        have hbeq : (k == a) = false := by
          rw [beq_eq_false_iff_ne]
          intro he
          exact hne (he.trans ha)
        rw [ih]
        simp only [List.lookup, hbeq]
      · have : (!(a == k')) = true := by simp [ha]
        rw [List.filter_cons, this]
        simp only [List.lookup, ih]

theorem joinPath_temp_ne_checkpoint (out : String) :
    joinPath out checkpointTempName ≠ checkpointPath out := by
  unfold checkpointPath joinPath CHECKPOINT_FILENAME checkpointTempName
  rw [show strStartsWith ".gpth-progress.tmp" "/" = false from by decide]
  rw [show strStartsWith ".gpth-progress.json" "/" = false from by decide]
  simp only [Bool.false_eq_true, if_false]
  by_cases h0 : out = ""
  · rw [if_pos h0, if_pos h0]
    decide
  · rw [if_neg h0, if_neg h0]
    by_cases h1 : strEndsWith out "/" = true
    · rw [if_pos h1, if_pos h1]
      intro h
      exact absurd (strAppend_left_cancel h) (by decide)
    · rw [if_neg h1, if_neg h1]
      intro h
      have h2 := strAppend_left_cancel (a := "/" ++ ".gpth-progress.tmp")
        (b := "/" ++ ".gpth-progress.json")
        (by rw [← String.append_assoc, ← String.append_assoc]; exact h)
      exact absurd (strAppend_left_cancel h2) (by decide)

/-- C4: `Checkpoint::is_compatible` is true exactly when the version is
current, the run is not completed, the options hash matches the hash of
the seven layout-affecting options, and the archive lists and mtimes
match; and the recomputed hash depends only on those seven options. -/
theorem checkpoint_compatible_spec :
    (∀ (H : String → String) (mtime : String → Int) cp o,
      Checkpoint.is_compatible H mtime cp o = true ↔
        (cp.version = CHECKPOINT_VERSION ∧ cp.completed = false
          ∧ cp.options_hash = compute_options_hash H o
          ∧ cp.zip_files = o.zip_files
          ∧ cp.zip_mtimes = get_zip_mtimes mtime o.zip_files))
    ∧ (∀ (H : String → String) o o',
        o.divide_to_dates = o'.divide_to_dates →
        o.skip_extras = o'.skip_extras → o.no_guess = o'.no_guess →
        o.albums = o'.albums → o.album_dest = o'.album_dest →
        o.album_link = o'.album_link → o.output = o'.output →
        compute_options_hash H o = compute_options_hash H o') := by
  constructor
  · intro H mtime cp o
    unfold Checkpoint.is_compatible
    split_ifs with h1 h2 h3 h4 h5
    · simp only [Bool.false_eq_true, false_iff]
      intro hc
      exact h1 hc.1
    · simp only [Bool.false_eq_true, false_iff]
      intro hc
      rw [hc.2.1] at h2
      exact Bool.false_ne_true h2
    · simp only [Bool.false_eq_true, false_iff]
      intro hc
      exact h3 hc.2.2.1
    · simp only [Bool.false_eq_true, false_iff]
      intro hc
      exact h4 hc.2.2.2.1
    · simp only [Bool.false_eq_true, false_iff]
      intro hc
      exact h5 hc.2.2.2.2
    · simp only [true_iff]
      refine ⟨not_not.mp h1, ?_, not_not.mp h3, not_not.mp h4, not_not.mp h5⟩
      exact Bool.not_eq_true _ |>.mp h2
  · intro H o o' h1 h2 h3 h4 h5 h6 h7
    unfold compute_options_hash optionsHashInput
    rw [h1, h2, h3, h4, h5, h6, h7]

/-- C5 counterexample: the checkpoint file is `<output>/.gpth-progress.json`,
not `<output>/.progress` as claimed. -/
theorem checkpoint_path_counterexample :
    checkpointPath "out" = "out/.gpth-progress.json"
    ∧ checkpointPath "out" ≠ "out/.progress" := by
  constructor
  · decide
  · decide

/-- C5 (amended): the checkpoint lives at `<output>/.gpth-progress.json`;
`save` writes `<output>/.gpth-progress.tmp` and renames it over the
checkpoint path (leaving no temp file and touching no other path), and
`load` reads the same path, returning `none` when it is absent. -/
theorem checkpoint_persist_spec :
    (∀ cp out fs, Checkpoint.load out (Checkpoint.save cp out fs) = some cp)
    ∧ (∀ cp out fs, List.lookup (joinPath out checkpointTempName)
        (Checkpoint.save cp out fs) = none)
    ∧ (∀ out fs, List.lookup (checkpointPath out) fs = none →
        Checkpoint.load out fs = none)
    ∧ (∀ cp out fs p, p ≠ checkpointPath out →
        p ≠ joinPath out checkpointTempName →
        List.lookup p (Checkpoint.save cp out fs) = List.lookup p fs) := by
  refine ⟨?_, ?_, ?_, ?_⟩
  · intro cp out fs
    unfold Checkpoint.load Checkpoint.save fsRename fsWrite
    simp only [List.lookup]
    rw [show ((joinPath out checkpointTempName ==
        joinPath out checkpointTempName) = true) from beq_self_eq_true _]
    simp only [List.lookup, beq_self_eq_true]
  · intro cp out fs
    unfold Checkpoint.save fsRename fsWrite
    simp only [List.lookup]
    rw [show ((joinPath out checkpointTempName ==
        joinPath out checkpointTempName) = true) from beq_self_eq_true _]
    simp only [List.lookup]
    have hne : (joinPath out checkpointTempName == checkpointPath out)
        = false := by
      rw [beq_eq_false_iff_ne]
      exact joinPath_temp_ne_checkpoint out
    rw [hne]
    simp only [Bool.false_eq_true, if_false]
    apply lookup_eq_none_of_keys_ne
    intro q hq
    have hq2 := List.mem_of_mem_filter hq
    have hq3 := List.of_mem_filter hq2
    rcases List.mem_cons.mp (List.mem_of_mem_filter hq2) with he | hm
    · intro hk
      rw [he] at hq3
      simp at hq3
    · intro hk
      have := List.of_mem_filter hm
      rw [hk] at this
      simp at this
  · intro out fs h
    exact h
  · intro cp out fs p hp1 hp2
    unfold Checkpoint.save fsRename fsWrite
    simp only [List.lookup]
    rw [show ((joinPath out checkpointTempName ==
        joinPath out checkpointTempName) = true) from beq_self_eq_true _]
    simp only [List.lookup]
    have hb1 : (p == checkpointPath out) = false := by
      rw [beq_eq_false_iff_ne]; exact hp1
    rw [hb1]
    simp only [Bool.false_eq_true, if_false]
    rw [lookup_filterKey_ne p (checkpointPath out) hp1]
    rw [lookup_filterKey_ne p (joinPath out checkpointTempName) hp2]
    simp only [List.lookup]
    have hb2 : (p == joinPath out checkpointTempName) = false := by
      rw [beq_eq_false_iff_ne]; exact hp2
    rw [hb2]
    simp only [Bool.false_eq_true, if_false]
    exact lookup_filterKey_ne p (joinPath out checkpointTempName) hp2 fs

theorem digitChar_ne_slash (k : Nat) : digitChar k ≠ '/' := by
  rcases k with _|_|_|_|_|_|_|_|_|k
  · decide
  · decide
  · decide
  · decide
  · decide
  · decide
  · decide
  · decide
  · decide
  · show ('9' : Char) ≠ '/'
    decide

theorem digitChar_val (k : Nat) (h : k < 10) : (digitChar k).toNat - 48 = k := by
  rcases k with _|_|_|_|_|_|_|_|_|_|k
  · decide
  · decide
  · decide
  · decide
  · decide
  · decide
  · decide
  · decide
  · decide
  · decide
  · omega

theorem ndGo_noSlash : ∀ fuel n, '/' ∉ ndGo fuel n := by
  intro fuel
  induction fuel with
  | zero => intro n h; exact absurd h (by simp [ndGo])
  | succ fuel ih =>
      intro n h
      unfold ndGo at h
      by_cases h10 : n < 10
      · rw [if_pos h10] at h
        rcases List.mem_singleton.mp h with he
        exact digitChar_ne_slash n he.symm
      · rw [if_neg h10] at h
        rcases List.mem_cons.mp h with he | hm
        · exact digitChar_ne_slash (n % 10) he.symm
        · exact ih (n / 10) hm

theorem ndGo_val : ∀ fuel n, n < fuel → revVal (ndGo fuel n) = n := by
  intro fuel
  induction fuel with
  | zero => intro n h; omega
  | succ fuel ih =>
      intro n h
      unfold ndGo
      by_cases h10 : n < 10
      · rw [if_pos h10]
        simp only [revVal]
        rw [digitChar_val n h10]
        omega
      · rw [if_neg h10]
        simp only [revVal]
        have hlt : n / 10 < fuel := by
          have := Nat.div_lt_self (by omega : 0 < n) (by omega : 1 < 10)
          omega
        rw [ih (n / 10) hlt, digitChar_val (n % 10) (Nat.mod_lt n (by omega))]
        omega

theorem natToString_inj {a b : Nat} (h : natToString a = natToString b) :
    a = b := by
  unfold natToString at h
  have hd := congrArg String.data h
  have hrev : ndGo (a+1) a = ndGo (b+1) b :=
    List.reverse_injective hd
  have hva := ndGo_val (a+1) a (by omega)
  have hvb := ndGo_val (b+1) b (by omega)
  rw [hrev, hvb] at hva
  omega

theorem natToString_noSlash (n : Nat) : '/' ∉ (natToString n).toList := by
  intro h
  unfold natToString at h
  have : '/' ∈ ndGo (n+1) n := List.mem_reverse.mp h
  exact ndGo_noSlash (n+1) n this

theorem strStartsWith_iff {s p : String} :
    strStartsWith s p = true ↔ p.toList <+: s.toList := by
  unfold strStartsWith
  exact List.isPrefixOf_iff_prefix

theorem noSlash_not_abs {s : String} (h : '/' ∉ s.toList) :
    strStartsWith s "/" = false := by
  rw [Bool.eq_false_iff]
  intro habs
  have hp := strStartsWith_iff.mp habs
  exact h (hp.subset (by decide))

theorem strStartsWith_append_self (s t : String) :
    strStartsWith (s ++ t) s = true := by
  rw [strStartsWith_iff]
  have : (s ++ t).toList = s.toList ++ t.toList := by
    simp [String.toList, String.data_append]
  rw [this]
  exact List.prefix_append _ _

theorem strStartsWith_append_of {s p : String} (t : String)
    (h : strStartsWith s p = true) : strStartsWith (s ++ t) p = true := by
  rw [strStartsWith_iff] at h ⊢
  have : (s ++ t).toList = s.toList ++ t.toList := by
    simp [String.toList, String.data_append]
  rw [this]
  exact h.trans (List.prefix_append _ _)

theorem noSlash_append {a b : String} (ha : '/' ∉ a.toList)
    (hb : '/' ∉ b.toList) : '/' ∉ (a ++ b).toList := by
  intro h
  have : (a ++ b).toList = a.toList ++ b.toList := by
    simp [String.toList, String.data_append]
  rw [this] at h
  rcases List.mem_append.mp h with h1 | h1
  · exact ha h1
  · exact hb h1

theorem joinPath_eq_of {dir name : String}
    (habs : strStartsWith name "/" = false) (h0 : dir ≠ "")
    (h1 : strEndsWith dir "/" = false) :
    joinPath dir name = dir ++ "/" ++ name := by
  unfold joinPath
  rw [habs, if_neg h0, h1]
  simp

theorem joinPath_cases {dir name : String}
    (habs : strStartsWith name "/" = false) (h0 : dir ≠ "") :
    joinPath dir name = dir ++ name ∨ joinPath dir name = dir ++ "/" ++ name := by
  unfold joinPath
  rw [habs, if_neg h0]
  by_cases h1 : strEndsWith dir "/" = true
  · rw [h1]; left; simp
  · rw [Bool.eq_false_iff.mpr h1]; right; simp

theorem ne_empty_of_startsWith {s out : String}
    (h : strStartsWith s (out ++ "/") = true) : s ≠ "" := by
  intro he
  rw [he] at h
  have hp := strStartsWith_iff.mp h
  have : (out ++ "/").toList = out.toList ++ "/".toList := by
    simp [String.toList, String.data_append]
  rw [this] at hp
  have hnil := List.prefix_nil.mp hp
  have := List.append_eq_nil.mp hnil
  exact absurd this.2 (by decide)

theorem joinPath_under {out d name : String} (hout : out ≠ "")
    (hsl : strEndsWith out "/" = false)
    (hd : d = out ∨ strStartsWith d (out ++ "/") = true)
    (habs : strStartsWith name "/" = false) :
    strStartsWith (joinPath d name) (out ++ "/") = true := by
  rcases hd with rfl | hpre
  · rw [joinPath_eq_of habs hout hsl]
    exact strStartsWith_append_self (d ++ "/") name
  · have hne := ne_empty_of_startsWith hpre
    rcases joinPath_cases habs hne with he | he
    · rw [he]; exact strStartsWith_append_of name hpre
    · rw [he]
      exact strStartsWith_append_of name (strStartsWith_append_of "/" hpre)

theorem noSlash_pad4 (n : Nat) : '/' ∉ ((pad4 n).asString).toList := by
  intro h
  have h' : '/' ∈ pad4 n := h
  simp only [pad4, List.mem_cons, List.not_mem_nil, or_false] at h'
  rcases h' with h' | h' | h' | h' <;> exact digitChar_ne_slash _ h'.symm

theorem noSlash_pad2 (n : Nat) : '/' ∉ ((pad2 n).asString).toList := by
  intro h
  have h' : '/' ∈ pad2 n := h
  simp only [pad2, List.mem_cons, List.not_mem_nil, or_false] at h'
  rcases h' with h' | h' <;> exact digitChar_ne_slash _ h'.symm

theorem subDir_under (divide : Bool) (out : String) (m : Media)
    (hout : out ≠ "") (hsl : strEndsWith out "/" = false) :
    subDirOf divide out m = out
    ∨ strStartsWith (subDirOf divide out m) (out ++ "/") = true := by
  unfold subDirOf
  cases divide with
  | false => left; rfl
  | true =>
      right
      cases m.date with
      | none =>
          exact joinPath_under hout hsl (Or.inl rfl)
            (noSlash_not_abs
              (by decide : '/' ∉ ("date-unknown" : String).toList))
      | some dt =>
          apply joinPath_under hout hsl
          · right
            rw [joinPath_eq_of (noSlash_not_abs (noSlash_pad4 dt.year))
              hout hsl]
            exact strStartsWith_append_self (out ++ "/") _
          · exact noSlash_not_abs (noSlash_pad2 dt.month)

theorem splitOnCharAux_noSep {sep : Char} : ∀ l : List Char,
    sep ∉ l → splitOnCharAux sep l = [l] := by
  intro l
  induction l with
  | nil => intro _; rfl
  | cons c cs ih =>
      intro h
      have hc : ¬ c = sep := fun he => h (he ▸ List.mem_cons_self c cs)
      have hrest := ih (fun hm => h (List.mem_cons_of_mem _ hm))
      show (if c = sep then [] :: splitOnCharAux sep cs
        else match splitOnCharAux sep cs with
          | [] => [[c]]
          | hh :: t => (c :: hh) :: t) = [c :: cs]
      rw [if_neg hc, hrest]

theorem splitOnChar_noSep {f : String} (h : '/' ∉ f.toList) :
    splitOnChar '/' f = [f] := by
  unfold splitOnChar
  rw [splitOnCharAux_noSep f.toList h]
  rfl

theorem rustFileName_cases {f : String} (h : '/' ∉ f.toList) :
    rustFileName f = none ∨ rustFileName f = some f := by
  unfold rustFileName
  rw [splitOnChar_noSep h]
  by_cases h1 : f = ""
  · left
    simp [h1]
  · by_cases h2 : f = "."
    · left
      simp [h2]
    · by_cases h3 : f = ".."
      · left
        simp [h1, h2, h3]
      · right
        simp [h1, h2, h3]

theorem stemOfName_subset {name : String} {c : Char}
    (h : c ∈ (stemOfName name).toList) : c ∈ name.toList := by
  unfold stemOfName at h
  cases hcs : name.toList with
  | nil =>
      rw [hcs] at h
      exact absurd h (by simp)
  | cons f r =>
      rw [hcs] at h
      have h2 : c ∈ (if (r.filter (fun c => c = '.')).isEmpty then name
          else match ((List.range (f :: r).length).filter
              (fun i => (f :: r).get? i = some '.' && i ≠ 0)).getLast? with
            | none => name
            | some i => ((f :: r).take i).asString).toList := h
      clear h
      split at h2
      · exact hcs ▸ h2
      · split at h2
        · exact hcs ▸ h2
        · exact List.mem_of_mem_take h2

theorem noSlash_stemD {f : String} (h : '/' ∉ f.toList) :
    '/' ∉ ((rustFileStem f).getD "file").toList := by
  unfold rustFileStem
  rcases rustFileName_cases h with he | he
  · rw [he]
    show '/' ∉ ("file" : String).toList
    decide
  · rw [he]
    show '/' ∉ (stemOfName f).toList
    intro hc
    exact h (stemOfName_subset hc)

theorem noSlash_extD {f : String} (h : '/' ∉ f.toList) :
    '/' ∉ ((rustExtension f).getD "").toList := by
  unfold rustExtension
  rcases rustFileName_cases h with he | he
  · rw [he]
    show '/' ∉ ("" : String).toList
    decide
  · rw [he]
    show '/' ∉ ((if stemOfName f = f then none
      else some ((f.toList.drop ((stemOfName f).length + 1)).asString)).getD
        "").toList
    by_cases hs : stemOfName f = f
    · rw [if_pos hs]
      show '/' ∉ ("" : String).toList
      decide
    · rw [if_neg hs]
      intro hc
      exact h (List.mem_of_mem_drop hc)

theorem candName_under {out sd : String} (stem ext : String) (n : Nat)
    (hout : out ≠ "") (hsl : strEndsWith out "/" = false)
    (hd : sd = out ∨ strStartsWith sd (out ++ "/") = true)
    (hs : '/' ∉ stem.toList) (he : '/' ∉ ext.toList) :
    strStartsWith (candName sd stem ext n) (out ++ "/") = true := by
  unfold candName
  by_cases hex : ext = ""
  · rw [if_pos hex]
    apply joinPath_under hout hsl hd
    apply noSlash_not_abs
    exact noSlash_append (noSlash_append (noSlash_append hs (by decide))
      (natToString_noSlash n)) (by decide)
  · rw [if_neg hex]
    apply joinPath_under hout hsl hd
    apply noSlash_not_abs
    exact noSlash_append (noSlash_append (noSlash_append (noSlash_append hs
      (by decide)) (natToString_noSlash n)) (by decide)) he

theorem joinPath_inj_name {sd a b : String}
    (ha : strStartsWith a "/" = false) (hb : strStartsWith b "/" = false)
    (h : joinPath sd a = joinPath sd b) : a = b := by
  unfold joinPath at h
  rw [ha, hb] at h
  simp only [Bool.false_eq_true, if_false] at h
  by_cases hsd : sd = ""
  · rw [if_pos hsd, if_pos hsd] at h
    exact h
  · rw [if_neg hsd, if_neg hsd] at h
    by_cases hend : strEndsWith sd "/" = true
    · rw [hend] at h
      simp only [if_true] at h
      exact strAppend_left_cancel h
    · have hend' : strEndsWith sd "/" = false := Bool.eq_false_iff.mpr hend
      rw [hend'] at h
      simp only [Bool.false_eq_true, if_false] at h
      have hd := congrArg String.data h
      simp only [String.data_append, List.append_assoc] at hd
      exact String.ext (List.append_cancel_left (List.append_cancel_left hd))

theorem candName_inj (sd stem ext : String) {n m : Nat}
    (hs : '/' ∉ stem.toList) (he : '/' ∉ ext.toList)
    (h : candName sd stem ext n = candName sd stem ext m) : n = m := by
  unfold candName at h
  by_cases hex : ext = ""
  · rw [if_pos hex, if_pos hex] at h
    have habs1 : strStartsWith (stem ++ "(" ++ natToString n ++ ")") "/"
        = false :=
      noSlash_not_abs (noSlash_append (noSlash_append (noSlash_append hs
        (by decide)) (natToString_noSlash n)) (by decide))
    have habs2 : strStartsWith (stem ++ "(" ++ natToString m ++ ")") "/"
        = false :=
      noSlash_not_abs (noSlash_append (noSlash_append (noSlash_append hs
        (by decide)) (natToString_noSlash m)) (by decide))
    have hname := joinPath_inj_name habs1 habs2 h
    have hd := congrArg String.data hname
    simp only [String.data_append, List.append_assoc] at hd
    have h1 := List.append_cancel_left hd
    have h2 := List.append_cancel_left h1
    have h3 := List.append_cancel_right h2
    exact natToString_inj (String.ext h3)
  · rw [if_neg hex, if_neg hex] at h
    have habs1 : strStartsWith (stem ++ "(" ++ natToString n ++ ")." ++ ext)
        "/" = false :=
      noSlash_not_abs (noSlash_append (noSlash_append (noSlash_append
        (noSlash_append hs (by decide)) (natToString_noSlash n))
        (by decide)) he)
    have habs2 : strStartsWith (stem ++ "(" ++ natToString m ++ ")." ++ ext)
        "/" = false :=
      noSlash_not_abs (noSlash_append (noSlash_append (noSlash_append
        (noSlash_append hs (by decide)) (natToString_noSlash m))
        (by decide)) he)
    have hname := joinPath_inj_name habs1 habs2 h
    have hd := congrArg String.data hname
    simp only [String.data_append, List.append_assoc] at hd
    have h1 := List.append_cancel_left hd
    have h2 := List.append_cancel_left h1
    have h3 := List.append_cancel_right h2
    exact natToString_inj (String.ext h3)

theorem findFree_spec (used : List String) (existing : List (String × Nat))
    (sd st ex : String) :
    ∀ fuel c k cand, findFree used existing sd st ex fuel c = some (k, cand) →
      cand = candName sd st ex k ∧ cand ∉ used
      ∧ List.lookup cand existing = none ∧ c < k
      ∧ ∀ j, c < j → j < k →
          candName sd st ex j ∈ used
          ∨ (List.lookup (candName sd st ex j) existing).isSome = true := by
  intro fuel
  induction fuel with
  | zero =>
      intro c k cand h
      exact absurd h (by simp [findFree])
  | succ fuel ih =>
      intro c k cand h
      unfold findFree at h
      by_cases hb : candName sd st ex (c+1) ∈ used
          ∨ (List.lookup (candName sd st ex (c+1)) existing).isSome = true
      · rw [if_pos hb] at h
        obtain ⟨h1, h2, h3, h4, h5⟩ := ih (c+1) k cand h
        refine ⟨h1, h2, h3, by omega, ?_⟩
        intro j hj1 hj2
        by_cases hj : j = c + 1
        · rw [hj]
          exact hb
        · exact h5 j (by omega) hj2
      · rw [if_neg hb] at h
        injection h with h'
        injection h' with hk hc
        push_neg at hb
        refine ⟨?_, ?_, ?_, by omega, ?_⟩
        · rw [← hc, ← hk]
        · rw [← hc]; exact hb.1
        · rw [← hc]
          have := hb.2
          cases hopt : List.lookup (candName sd st ex (c+1)) existing with
          | none => rfl
          | some v => rw [hopt] at this; exact absurd rfl this
        · intro j hj1 hj2
          omega

theorem findFree_none (used : List String) (existing : List (String × Nat))
    (sd st ex : String) :
    ∀ fuel c, findFree used existing sd st ex fuel c = none →
      ∀ i, i < fuel →
        candName sd st ex (c+1+i) ∈ used
        ∨ (List.lookup (candName sd st ex (c+1+i)) existing).isSome = true := by
  intro fuel
  induction fuel with
  | zero => intro c _ i hi; omega
  | succ fuel ih =>
      intro c h i hi
      unfold findFree at h
      by_cases hb : candName sd st ex (c+1) ∈ used
          ∨ (List.lookup (candName sd st ex (c+1)) existing).isSome = true
      · rw [if_pos hb] at h
        rcases i with _ | i
        · exact hb
        · have harith : c + 1 + (i + 1) = (c + 1) + 1 + i := by omega
          rw [harith]
          exact ih (c+1) h i (by omega)
      · rw [if_neg hb] at h
        exact absurd h (by simp)

theorem lookup_isSome_mem (k : String) (l : List (String × Nat))
    (h : (List.lookup k l).isSome = true) : k ∈ l.map Prod.fst := by
  induction l with
  | nil => simp [List.lookup] at h
  | cons q rest ih =>
      obtain ⟨a, v⟩ := q
      by_cases hk : k = a
      · rw [List.map_cons]
        exact hk ▸ List.mem_cons_self _ _
      · have hbeq : (k == a) = false := beq_eq_false_iff_ne.mpr hk
        simp only [List.lookup, hbeq] at h
        rw [List.map_cons]
        exact List.mem_cons_of_mem _ (ih h)

theorem findFree_succeeds (used : List String)
    (existing : List (String × Nat)) (sd st ex : String) (c : Nat)
    (hs : '/' ∉ st.toList) (he : '/' ∉ ex.toList) :
    findFree used existing sd st ex
      (used.length + existing.length + 1) c ≠ none := by
  intro hnone
  have hall := findFree_none used existing sd st ex _ c hnone
  have hsub : ∀ i, i < used.length + existing.length + 1 →
      candName sd st ex (c+1+i) ∈ used ++ existing.map Prod.fst := by
    intro i hi
    rcases hall i hi with h | h
    · exact List.mem_append.mpr (Or.inl h)
    · exact List.mem_append.mpr (Or.inr (lookup_isSome_mem _ _ h))
  have hinj : Function.Injective (fun i => candName sd st ex (c+1+i)) := by
    intro i j hij
    have := candName_inj sd st ex hs he hij
    omega
  have hnodup : ((List.range (used.length + existing.length + 1)).map
      (fun i => candName sd st ex (c+1+i))).Nodup :=
    (List.nodup_range _).map hinj
  have hsubset : ((List.range (used.length + existing.length + 1)).map
      (fun i => candName sd st ex (c+1+i)))
      ⊆ used ++ existing.map Prod.fst := by
    intro x hx
    obtain ⟨i, hi, rfl⟩ := List.mem_map.mp hx
    exact hsub i (List.mem_range.mp hi)
  have hle := (hnodup.subperm hsubset).length_le
  simp only [List.length_map, List.length_range, List.length_append] at hle
  omega

theorem assignStep_cases (divide : Bool) (out : String)
    (existing : List (String × Nat)) (st : AssignState) (m : Media)
    (hname : '/' ∉ m.filename.toList) :
    ∃ dest cnt,
      assignStep divide out existing [] st m
        = ⟨setCounter (joinPath (subDirOf divide out m) m.filename) cnt
            st.counters, dest :: st.used, st.assignments ++ [dest]⟩
      ∧ dest ∉ st.used
      ∧ (dest = joinPath (subDirOf divide out m) m.filename
        ∨ ∃ k, dest = candName (subDirOf divide out m)
            ((rustFileStem m.filename).getD "file")
            ((rustExtension m.filename).getD "") k) := by
  unfold assignStep
  simp only [List.lookup]
  split
  · rename_i hcond
    exact ⟨_, _, rfl, hcond.1.2, Or.inl rfl⟩
  · rename_i hcond
    split
    · rename_i k cand hff
      have hspec := findFree_spec st.used existing _ _ _ _ _ _ _ hff
      exact ⟨cand, k, rfl, hspec.2.1, Or.inr ⟨k, hspec.1⟩⟩
    · rename_i hff
      exact absurd hff (findFree_succeeds _ _ _ _ _ _
        (noSlash_stemD hname) (noSlash_extD hname))

/-- C3 (amended): with no checkpoint map (not resuming), a non-empty
output root without a trailing separator, and filenames free of path
separators, the assignment phase yields pairwise-distinct paths, all under
the output root, one per media; and the collision loop always finds, and
returns, the first counter candidate absent from both the used set and the
existing-files map. -/
theorem write_assign_spec (divide : Bool) (out : String)
    (existing : List (String × Nat)) (media : List Media)
    (hout : out ≠ "") (hsl : strEndsWith out "/" = false)
    (hname : ∀ m ∈ media, '/' ∉ m.filename.toList) :
    (assignPhase divide out existing [] media).Pairwise (· ≠ ·)
    ∧ (∀ p ∈ assignPhase divide out existing [] media,
        strStartsWith p (out ++ "/") = true)
    ∧ (assignPhase divide out existing [] media).length = media.length
    ∧ (∀ (used : List String) (exf : List (String × Nat))
        (sd stem ext : String) (c : Nat),
        '/' ∉ stem.toList → '/' ∉ ext.toList →
        ∃ k cand,
          findFree used exf sd stem ext (used.length + exf.length + 1) c
            = some (k, cand)
          ∧ c < k ∧ cand = candName sd stem ext k ∧ cand ∉ used
          ∧ List.lookup cand exf = none
          ∧ ∀ j, c < j → j < k → candName sd stem ext j ∈ used
              ∨ (List.lookup (candName sd stem ext j) exf).isSome = true) := by
  have main : ∀ ms : List Media, (∀ m ∈ ms, '/' ∉ m.filename.toList) →
      ∀ st : AssignState,
      st.assignments.Pairwise (· ≠ ·) →
      (∀ p ∈ st.assignments, p ∈ st.used) →
      (∀ p ∈ st.assignments, strStartsWith p (out ++ "/") = true) →
      ((ms.foldl (assignStep divide out existing []) st).assignments.Pairwise
          (· ≠ ·)
        ∧ (∀ p ∈ (ms.foldl (assignStep divide out existing [])
            st).assignments, strStartsWith p (out ++ "/") = true)
        ∧ (ms.foldl (assignStep divide out existing
            [])
            st).assignments.length = st.assignments.length + ms.length) := by
    intro ms
    induction ms with
    | nil =>
        intro _ st h1 h2 h3
        exact ⟨h1, h3, by simp⟩
    | cons m rest ih =>
        intro hn st h1 h2 h3
        obtain ⟨dest, cnt, hstep, hdu, hdform⟩ :=
          assignStep_cases divide out existing st m
            (hn m (List.mem_cons_self _ _))
        have hdest_under : strStartsWith dest (out ++ "/") = true := by
          rcases hdform with hbase | ⟨k, hcand⟩
          · rw [hbase]
            exact joinPath_under hout hsl (subDir_under divide out m hout hsl)
              (noSlash_not_abs (hn m (List.mem_cons_self _ _)))
          · rw [hcand]
            exact candName_under _ _ _ hout hsl
              (subDir_under divide out m hout hsl)
              (noSlash_stemD (hn m (List.mem_cons_self _ _)))
              (noSlash_extD (hn m (List.mem_cons_self _ _)))
        have hp1 : (st.assignments ++ [dest]).Pairwise (· ≠ ·) := by
          rw [List.pairwise_append]
          refine ⟨h1, by simp, ?_⟩
          intro a ha b hb
          rw [List.mem_singleton.mp hb]
          intro he
          exact hdu (he ▸ h2 a ha)
        have hp2 : ∀ p ∈ st.assignments ++ [dest], p ∈ dest :: st.used := by
          intro p hp
          rcases List.mem_append.mp hp with hp | hp
          · exact List.mem_cons_of_mem _ (h2 p hp)
          · rw [List.mem_singleton.mp hp]
            exact List.mem_cons_self _ _
        have hp3 : ∀ p ∈ st.assignments ++ [dest],
            strStartsWith p (out ++ "/") = true := by
          intro p hp
          rcases List.mem_append.mp hp with hp | hp
          · exact h3 p hp
          · rw [List.mem_singleton.mp hp]
            exact hdest_under
        obtain ⟨ha, hb, hc⟩ := ih (fun x hx => hn x (List.mem_cons_of_mem _ hx))
          ⟨setCounter (joinPath (subDirOf divide out m) m.filename) cnt
            st.counters, dest :: st.used, st.assignments ++ [dest]⟩ hp1 hp2 hp3
        rw [List.foldl_cons, hstep]
        refine ⟨ha, hb, ?_⟩
        rw [hc]
        simp only [List.length_append, List.length_cons, List.length_nil]
        omega
  have hm := main media hname ⟨[], [], []⟩ List.Pairwise.nil
    (fun p hp => absurd hp (List.not_mem_nil p))
    (fun p hp => absurd hp (List.not_mem_nil p))
  have heq : assignPhase divide out existing [] media
      = (media.foldl (assignStep divide out existing [])
          ⟨[], [], []⟩).assignments := rfl
  refine ⟨heq ▸ hm.1, ?_, ?_, ?_⟩
  · rw [heq]
    exact hm.2.1
  · rw [heq, hm.2.2]
    simp
  · intro used exf sd stem ext c hs he
    cases hff : findFree used exf sd stem ext
        (used.length + exf.length + 1) c with
    | none => exact absurd hff (findFree_succeeds used exf sd stem ext c hs he)
    | some p =>
        obtain ⟨k, cand⟩ := p
        obtain ⟨h1, h2, h3, h4, h5⟩ :=
          findFree_spec used exf sd stem ext _ c k cand hff
        exact ⟨k, cand, rfl, h4, h1, h2, h3, h5⟩

/-- C3 counterexample: when resuming from a checkpoint, two media sharing
an archive path both receive the saved output path verbatim — the
assignments repeat, and the saved path need not lie under the output
root. -/
theorem write_assign_counterexample :
    assignPhase false "out" [] [("Takeout/a.jpg", "elsewhere/x.jpg")]
      [Media.new "Takeout/a.jpg" 0 0 "a.jpg" 5,
       Media.new "Takeout/a.jpg" 0 1 "a.jpg" 5]
      = ["elsewhere/x.jpg", "elsewhere/x.jpg"]
    ∧ ¬ (["elsewhere/x.jpg", "elsewhere/x.jpg"] : List String).Pairwise
        (· ≠ ·)
    ∧ strStartsWith "elsewhere/x.jpg" ("out" ++ "/") = false := by
  refine ⟨by decide, ?_, by decide⟩
  intro hp
  exact (List.pairwise_cons.mp hp).1 _ (List.mem_cons_self _ _) rfl

/-- C3 witness: the amended theorem on a one-element media list. -/
theorem write_assign_spec_witness :
    (assignPhase false "o" [] [] [Media.new "t/a.jpg" 0 0 "a.jpg" 3]).Pairwise
        (· ≠ ·)
    ∧ (∀ p ∈ assignPhase false "o" [] []
        [Media.new "t/a.jpg" 0 0 "a.jpg" 3],
        strStartsWith p ("o" ++ "/") = true)
    ∧ (assignPhase false "o" [] []
        [Media.new "t/a.jpg" 0 0 "a.jpg" 3]).length
        = [Media.new "t/a.jpg" 0 0 "a.jpg" 3].length
    ∧ (∀ (used : List String) (exf : List (String × Nat))
        (sd stem ext : String) (c : Nat),
        '/' ∉ stem.toList → '/' ∉ ext.toList →
        ∃ k cand,
          findFree used exf sd stem ext (used.length + exf.length + 1) c
            = some (k, cand)
          ∧ c < k ∧ cand = candName sd stem ext k ∧ cand ∉ used
          ∧ List.lookup cand exf = none
          ∧ ∀ j, c < j → j < k → candName sd stem ext j ∈ used
              ∨ (List.lookup (candName sd stem ext j) exf).isSome = true) :=
  write_assign_spec false "o" [] [Media.new "t/a.jpg" 0 0 "a.jpg" 3]
    (by decide) (by decide) (by decide)

end Gpth

